import Mathlib

/-!
# Pub/sub broker (`main.go`): a shallow embedding

The Go program keeps a registry `subscribers : map[string]map[chan string]struct{}`
guarded by a lock, and hands every subscriber a buffered channel of capacity 16.
A connection handler reads lines, calls the broker and answers each command.

Modelling decisions.

* A channel value is an index into a heap of channel objects (`State.chans`);
  `make(chan string, 16)` allocates the next index.
* A Go map is an association list read through `mapGet` (first match), written
  through `mapSet` and `mapDelete`. A Go set `map[chan string]struct{}` is a list
  of channel indices; `Publish` visits the list in order. Go iterates a map in an
  unspecified order: `sendAll_perm` shows that the order does not matter.
* A Go panic (send on a closed channel, close of a closed channel) is the
  `Except.error` branch.
* The model is sequential: every operation runs to completion. Forwarder
  goroutines, which only dequeue from a mailbox and write to the socket, are not
  part of the model, so nothing is ever dequeued and the handler's output holds
  its own response lines only.
* A Go `string` is a Lean `String` (a sequence of Unicode characters). The
  handler works on the texts `scanner.Text()` yields, one per line.
  `strings.TrimSpace` and `strings.SplitN` are written out; `strings.ToUpper` is a
  parameter of the handler, so that the theorems hold for the library function
  whatever it does outside ASCII.
-/

namespace PubSub

/-! ## Go maps as association lists -/

/-- Map read `m[k]` with the comma-ok result as an `Option`. -/
def mapGet {β : Type} : List (String × β) → String → Option β
  | [], _ => none
  | (k', v) :: rest, k => if k' = k then some v else mapGet rest k

/-- Map write `m[k] = v`: overwrite the entry of `k`, or add one. -/
def mapSet {β : Type} : List (String × β) → String → β → List (String × β)
  | [], k, v => [(k, v)]
  | (k', v') :: rest, k, v =>
    if k' = k then (k, v) :: rest else (k', v') :: mapSet rest k v

/-- Map removal `delete(m, k)`. -/
def mapDelete {β : Type} : List (String × β) → String → List (String × β)
  | [], _ => []
  | (k', v') :: rest, k =>
    if k' = k then mapDelete rest k else (k', v') :: mapDelete rest k

/-! ## Channels and the broker state -/

/-- A `chan string` object: the queued messages (oldest first) and whether
`close` has been called on it. -/
structure Chan where
  buf : List String
  closed : Bool
deriving DecidableEq, Repr

/-- Capacity given at the only allocation site, `make(chan string, 16)`. -/
def chanCap : Nat := 16

/-- The `Broker` (its `subscribers` map) together with the heap of channel
objects the map's keys point to. -/
structure State where
  subscribers : List (String × List Nat)
  chans : List Chan
deriving DecidableEq, Repr

/-- Go `NewBroker()`: an empty registry; no channel has been allocated. -/
def NewBroker : State := ⟨[], []⟩

/-- Subscriber set of a topic, empty when the topic is not a key. -/
def subsOf (w : State) (topic : String) : List Nat :=
  (mapGet w.subscribers topic).getD []

/-- The topic is a key of `b.subscribers`. -/
def hasKey (w : State) (topic : String) : Prop :=
  (mapGet w.subscribers topic).isSome = true

instance (w : State) (topic : String) : Decidable (hasKey w topic) := by
  unfold hasKey; infer_instance

/-- The channel is a member of the topic's subscriber set. -/
def registered (w : State) (topic : String) (ch : Nat) : Prop :=
  ch ∈ subsOf w topic

instance (w : State) (topic : String) (ch : Nat) : Decidable (registered w topic ch) := by
  unfold registered; infer_instance

/-- Messages queued in a channel (empty for an index that was never allocated). -/
def bufOf (w : State) (ch : Nat) : List String :=
  match w.chans[ch]? with
  | some c => c.buf
  | none => []

/-- The channel was allocated and `close` has not been called on it. -/
def isOpen (w : State) (ch : Nat) : Prop :=
  ∃ c, w.chans[ch]? = some c ∧ c.closed = false

/-- The channel was allocated and `close` has been called on it. -/
def isClosed (w : State) (ch : Nat) : Prop :=
  ∃ c, w.chans[ch]? = some c ∧ c.closed = true

/-- Go `Broker.Subscribe` (lines 29-36): allocate a channel, create the topic's set
if the topic is not a key, add the channel to the set. Returns the channel; the
release closure it also returns is `unsub topic ch`. -/
def Subscribe (topic : String) (w : State) : Nat × State :=
  let ch := w.chans.length
  let chans := w.chans ++ [⟨[], false⟩]
  let m1 :=
    match mapGet w.subscribers topic with
    | some _ => w.subscribers
    | none => mapSet w.subscribers topic []
  let set := (mapGet m1 topic).getD []
  let set' := if ch ∈ set then set else set ++ [ch]
  (ch, ⟨mapSet m1 topic set', chans⟩)

/-- The locked part of the release closure (lines 40-47): remove the channel from
the topic's set, and remove the topic when the set has become empty. -/
def unsubLocked (topic : String) (ch : Nat) (w : State) : State :=
  match mapGet w.subscribers topic with
  | some subs =>
    let subs' := subs.filter (fun c => c ≠ ch)
    let m1 := mapSet w.subscribers topic subs'
    if subs'.length = 0 then ⟨mapDelete m1 topic, w.chans⟩ else ⟨m1, w.chans⟩
  | none => w

/-- Builtin `close(ch)` (line 48): panics on a channel that is already closed. -/
def closeChan (ch : Nat) (w : State) : Except String State :=
  match w.chans[ch]? with
  | none => .error "close of nil channel"
  | some c =>
    if c.closed then .error "close of closed channel"
    else .ok ⟨w.subscribers, w.chans.set ch ⟨c.buf, true⟩⟩

/-- The release closure returned by `Subscribe` (lines 39-49). -/
def unsub (topic : String) (ch : Nat) (w : State) : Except String State :=
  closeChan ch (unsubLocked topic ch w)

/-- One `select { case ch <- msg: default: }` (lines 60-64): enqueue when there is
room, drop when the buffer is full, panic when the channel is closed. -/
def trySend (ch : Nat) (msg : String) (w : State) : Except String State :=
  match w.chans[ch]? with
  | none => .error "send on unallocated channel"
  | some c =>
    if c.closed then .error "send on closed channel"
    else if c.buf.length < chanCap then
      .ok ⟨w.subscribers, w.chans.set ch ⟨c.buf ++ [msg], c.closed⟩⟩
    else .ok w

/-- The loop `for ch := range subs` of `Publish` (lines 59-65). -/
def sendAll (msg : String) : List Nat → State → Except String State
  | [], w => .ok w
  | ch :: rest, w =>
    match trySend ch msg w with
    | .ok w' => sendAll msg rest w'
    | .error e => .error e

/-- Go `Broker.Publish` (lines 55-67): send to every subscriber of the topic. -/
def Publish (topic msg : String) (w : State) : Except String State :=
  match mapGet w.subscribers topic with
  | some subs => sendAll msg subs w
  | none => .ok w

/-- Calls `Publish(topic, m)` for each message of the list, in order. -/
def publishAll (topic : String) : List String → State → Except String State
  | [], w => .ok w
  | m :: rest, w =>
    match Publish topic m w with
    | .ok w' => publishAll topic rest w'
    | .error e => .error e

/-- Registry invariants of a state the program can be in: no key maps to an
empty set, a set lists a channel once, a registered channel is allocated and
open, and a channel is registered under one topic only. -/
structure WF (w : State) : Prop where
  nonempty : ∀ t s, mapGet w.subscribers t = some s → s ≠ []
  nodup : ∀ t s, mapGet w.subscribers t = some s → s.Nodup
  isopen : ∀ t ch, registered w t ch → isOpen w ch
  unique : ∀ t t' ch, registered w t ch → registered w t' ch → t = t'

/-- What one publish does to a channel object that is a target of the send. -/
def enqueue (msg : String) (c : Chan) : Chan :=
  if c.buf.length < chanCap then ⟨c.buf ++ [msg], c.closed⟩ else c

/-- Reference definition of `Publish` in the words of the specification: the
topic map is kept; a mailbox registered under the topic that holds fewer than 16
messages gets the message at its tail; every other mailbox is kept. -/
def PublishRef (topic msg : String) (w : State) : State :=
  ⟨w.subscribers,
   w.chans.mapIdx (fun ch c =>
     if ch ∈ subsOf w topic ∧ c.buf.length < 16 then ⟨c.buf ++ [msg], c.closed⟩ else c)⟩

/-! ## Call histories: which release handles exist and which were invoked -/

/-- A call on the broker. `release i` invokes the handle returned by the `i`-th
`Subscribe` call (counting from 0). -/
inductive Op where
  | subscribe (topic : String)
  | publish (topic msg : String)
  | release (i : Nat)
deriving DecidableEq, Repr

/-- Broker state with the bookkeeping of handles: `issued` lists the
`(topic, ch)` pair each `Subscribe` call closed its handle over, `invoked` the
indices of the handles that were called. -/
structure Sys where
  state : State
  issued : List (String × Nat)
  invoked : List Nat
deriving DecidableEq, Repr

/-- The system right after `NewBroker()`. -/
def Sys.init : Sys := ⟨NewBroker, [], []⟩

/-- A handle can be invoked when it was issued and has not been invoked yet;
`Subscribe` and `Publish` can always be called. -/
def allowed (s : Sys) : Op → Bool
  | .release i => decide (i < s.issued.length) && !(decide (i ∈ s.invoked))
  | _ => true

/-- Effect of one call. -/
def step (op : Op) (s : Sys) : Except String Sys :=
  match op with
  | .subscribe topic =>
    let r := Subscribe topic s.state
    .ok ⟨r.2, s.issued ++ [(topic, r.1)], s.invoked⟩
  | .publish topic msg =>
    match Publish topic msg s.state with
    | .ok w => .ok ⟨w, s.issued, s.invoked⟩
    | .error e => .error e
  | .release i =>
    match s.issued[i]? with
    | none => .error "no such handle"
    | some (topic, ch) =>
      match unsub topic ch s.state with
      | .ok w => .ok ⟨w, s.issued, i :: s.invoked⟩
      | .error e => .error e

/-- Runs a sequence of calls in which every handle is invoked at most once;
`none` when a call is not allowed or panics. -/
def run : List Op → Sys → Option Sys
  | [], s => some s
  | op :: rest, s =>
    if allowed s op then
      match step op s with
      | .ok s' => run rest s'
      | .error _ => none
    else none

/-- States reachable from `NewBroker()` by `Subscribe`, `Publish` and release
calls, each handle invoked at most once. -/
def Reachable (s : Sys) : Prop := ∃ ops, run ops Sys.init = some s

/-- Invariant tying the registry to the handle bookkeeping: the `i`-th handle is
closed over channel `i`, and a channel is registered under a topic exactly when
its handle was issued for that topic and has not been invoked. -/
structure SysInv (s : Sys) : Prop where
  wf : WF s.state
  len : s.state.chans.length = s.issued.length
  idx : ∀ (i : Nat) (t : String) (ch : Nat), s.issued[i]? = some (t, ch) → ch = i
  inv_lt : ∀ i ∈ s.invoked, i < s.issued.length
  reg : ∀ (t : String) (ch : Nat),
    registered s.state t ch ↔ (s.issued[ch]? = some (t, ch) ∧ ch ∉ s.invoked)
  closed : ∀ i ∈ s.invoked, isClosed s.state i

/-! ## Text helpers of the connection handler -/

/-- Go `unicode.IsSpace`. -/
def isSpace (c : Char) : Bool :=
  let n := c.toNat
  n = 0x09 || n = 0x0A || n = 0x0B || n = 0x0C || n = 0x0D || n = 0x20 ||
  n = 0x85 || n = 0xA0 || n = 0x1680 || (0x2000 ≤ n && n ≤ 0x200A) ||
  n = 0x2028 || n = 0x2029 || n = 0x202F || n = 0x205F || n = 0x3000

/-- Go `strings.TrimSpace`: drop leading and trailing white space. -/
def TrimSpace (s : String) : String :=
  ⟨(s.data.dropWhile isSpace).rdropWhile isSpace⟩

/-- Go `strings.SplitN` for a one-character separator, on character lists: at
most `n` pieces, the last one being the unsplit remainder. -/
def splitChars (sep : Char) : Nat → List Char → List (List Char)
  | 0, _ => []
  | 1, s => [s]
  | n + 2, s =>
    if sep ∈ s then
      s.takeWhile (fun c => c ≠ sep) ::
        splitChars sep (n + 1) (s.dropWhile (fun c => c ≠ sep)).tail
    else [s]

/-- Go `strings.SplitN(s, sep, n)` with a one-character `sep`. -/
def SplitN (s : String) (sep : Char) (n : Nat) : List String :=
  (splitChars sep n s.data).map String.mk

/-- Upper-casing of ASCII letters: agrees with Go `strings.ToUpper` on ASCII
text. The handler below takes `ToUpper` as a parameter; this is the instance
used to evaluate it on ASCII lines. -/
def asciiToUpper (s : String) : String := ⟨s.data.map Char.toUpper⟩

/-! ## The connection handler -/

/-- The handler's local record type `sub`; its `unsub` field is the closure
`unsub topic ch`. -/
structure sub where
  topic : String
  ch : Nat
deriving DecidableEq, Repr

/-- A call the handler made on the broker (bookkeeping only). -/
inductive Call where
  | subscribe (topic : String) (ch : Nat)
  | publish (topic msg : String)
  | unsub (topic : String) (ch : Nat)
deriving DecidableEq, Repr

/-- State of one `handleConnection` run: the shared broker, the local slice
`subs`, the lines written to the connection by the handler (one entry per
`Fprintln`/`Fprintf` call), and the broker calls made so far (bookkeeping). -/
structure Conn where
  broker : State
  subs : List sub
  out : List String
  calls : List Call
deriving DecidableEq, Repr

/-- A fresh connection on a broker state. -/
def Conn.start (w : State) : Conn := ⟨w, [], [], []⟩

/-- The loop of `cleanup` (lines 109-111): call `s.unsub()` for each entry. -/
def releaseAll : List sub → Conn → Except String Conn
  | [], c => .ok c
  | s :: rest, c =>
    match unsub s.topic s.ch c.broker with
    | .ok b => releaseAll rest ⟨b, c.subs, c.out, c.calls ++ [.unsub s.topic s.ch]⟩
    | .error e => .error e

/-- The closure `cleanup` (lines 108-114) without the wait and the log line. -/
def cleanup (c : Conn) : Except String Conn := releaseAll c.subs c

/-- The search loop of UNSUBSCRIBE (lines 153-154): index and entry of the first
subscription with the topic. -/
def findTopic (topic : String) : List sub → Option (Nat × sub)
  | [] => none
  | s :: rest =>
    if s.topic = topic then some (0, s)
    else (findTopic topic rest).map (fun p => (p.1 + 1, p.2))

/-- One iteration of the scanner loop (lines 118-184) on the text of one line.
The Boolean is `true` when the handler returns (EXIT). `ToUpper` stands for
`strings.ToUpper`. -/
def handleLine (ToUpper : String → String) (text : String) (c : Conn) :
    Except String (Conn × Bool) :=
  let line := TrimSpace text
  if line = "" then .ok (c, false)
  else
    let parts := SplitN line ' ' 3
    let cmd := ToUpper (parts.getD 0 "")
    if cmd = "SUBSCRIBE" then
      if parts.length < 2 then
        .ok (⟨c.broker, c.subs, c.out ++ ["ERR missing topic for SUBSCRIBE"], c.calls⟩, false)
      else
        let topic := parts.getD 1 ""
        let r := Subscribe topic c.broker
        .ok (⟨r.2, c.subs ++ [⟨topic, r.1⟩], c.out ++ ["OK subscribed to " ++ topic],
              c.calls ++ [.subscribe topic r.1]⟩, false)
    else if cmd = "UNSUBSCRIBE" then
      if parts.length < 2 then
        .ok (⟨c.broker, c.subs, c.out ++ ["ERR missing topic for UNSUBSCRIBE"], c.calls⟩, false)
      else
        let topic := parts.getD 1 ""
        match findTopic topic c.subs with
        | some (i, s) =>
          match unsub s.topic s.ch c.broker with
          | .ok b =>
            .ok (⟨b, c.subs.eraseIdx i, c.out ++ ["OK unsubscribed from " ++ topic],
                  c.calls ++ [.unsub s.topic s.ch]⟩, false)
          | .error e => .error e
        | none =>
          .ok (⟨c.broker, c.subs, c.out ++ ["ERR not subscribed to " ++ topic], c.calls⟩, false)
    else if cmd = "PUBLISH" then
      if parts.length < 3 then
        .ok (⟨c.broker, c.subs, c.out ++ ["ERR usage: PUBLISH <topic> <message>"], c.calls⟩,
              false)
      else
        let topic := parts.getD 1 ""
        let msg := parts.getD 2 ""
        match Publish topic msg c.broker with
        | .ok b => .ok (⟨b, c.subs, c.out ++ ["OK"], c.calls ++ [.publish topic msg]⟩, false)
        | .error e => .error e
    else if cmd = "EXIT" then
      match cleanup ⟨c.broker, c.subs, c.out ++ ["bye"], c.calls⟩ with
      | .ok c' => .ok (c', true)
      | .error e => .error e
    else
      .ok (⟨c.broker, c.subs, c.out ++ ["ERR unknown command " ++ cmd], c.calls⟩, false)

/-- Go `handleConnection` (lines 94-187) on the texts the scanner yields: process
the lines until EXIT, and run `cleanup` at end of input. -/
def handleConnection (ToUpper : String → String) : List String → Conn → Except String Conn
  | [], c => cleanup c
  | text :: rest, c =>
    match handleLine ToUpper text c with
    | .ok (c', true) => .ok c'
    | .ok (c', false) => handleConnection ToUpper rest c'
    | .error e => .error e

/-- Invariant of the handler loop, over the broker, the record of broker calls
and the list of subscriptions still to be released: every listed subscription is
registered and was created by this connection, every mailbox this connection
created is either in the list or was released exactly once, and no created
mailbox is registered without being in the list. -/
structure HInv (b : State) (calls : List Call) (l : List sub) : Prop where
  wf : WF b
  reg : ∀ s ∈ l, registered b s.topic s.ch
  nodup : (l.map (fun s => s.ch)).Nodup
  count : ∀ (t : String) (ch : Nat), Call.subscribe t ch ∈ calls →
    calls.count (Call.unsub t ch) + l.count ⟨t, ch⟩ = 1
  unsubCreated : ∀ (t : String) (ch : Nat), Call.unsub t ch ∈ calls →
    Call.subscribe t ch ∈ calls
  listCreated : ∀ s ∈ l, Call.subscribe s.topic s.ch ∈ calls
  createdReg : ∀ (t : String) (ch : Nat) (t' : String), Call.subscribe t ch ∈ calls →
    registered b t' ch → ∃ s ∈ l, s.ch = ch
  createdLt : ∀ (t : String) (ch : Nat), Call.subscribe t ch ∈ calls → ch < b.chans.length

/-! ## Vocabulary of the protocol claims -/

/-- The last character of the text is white space. -/
def endsInSpace (s : String) : Bool :=
  match s.data.getLast? with
  | some c => isSpace c
  | none => false

/-- What may follow a token on a line: nothing, or a space and the rest. -/
def ArgTail (more : String) : Prop := more = "" ∨ ∃ r : String, more = " " ++ r

/-- The usage errors of the command table, on a trimmed line, each with the ERR
line that answers it: a command without its topic, PUBLISH without its message,
UNSUBSCRIBE of a topic that is not in the connection's list, and an unknown
keyword. `kw` is the first token of the line, `t` the second. -/
inductive UsageError (ToUpper : String → String) (subs : List sub) : String → String → Prop
  | subscribeNoTopic (kw : String) :
      kw ≠ "" → ' ' ∉ kw.data → ToUpper kw = "SUBSCRIBE" →
      UsageError ToUpper subs kw "ERR missing topic for SUBSCRIBE"
  | unsubscribeNoTopic (kw : String) :
      kw ≠ "" → ' ' ∉ kw.data → ToUpper kw = "UNSUBSCRIBE" →
      UsageError ToUpper subs kw "ERR missing topic for UNSUBSCRIBE"
  | publishNoTopic (kw : String) :
      kw ≠ "" → ' ' ∉ kw.data → ToUpper kw = "PUBLISH" →
      UsageError ToUpper subs kw "ERR usage: PUBLISH <topic> <message>"
  | publishNoMessage (kw t : String) :
      ' ' ∉ kw.data → ' ' ∉ t.data → ToUpper kw = "PUBLISH" →
      UsageError ToUpper subs (kw ++ " " ++ t) "ERR usage: PUBLISH <topic> <message>"
  | notSubscribed (kw t more : String) :
      ' ' ∉ kw.data → ' ' ∉ t.data → ArgTail more → ToUpper kw = "UNSUBSCRIBE" →
      (∀ s ∈ subs, s.topic ≠ t) →
      UsageError ToUpper subs (kw ++ " " ++ t ++ more) ("ERR not subscribed to " ++ t)
  | unknown (kw more : String) :
      kw ≠ "" → ' ' ∉ kw.data → ArgTail more →
      ToUpper kw ≠ "SUBSCRIBE" → ToUpper kw ≠ "UNSUBSCRIBE" → ToUpper kw ≠ "PUBLISH" →
      ToUpper kw ≠ "EXIT" →
      UsageError ToUpper subs (kw ++ more) ("ERR unknown command " ++ ToUpper kw)

/-! ## Lemmas on maps -/

theorem mapGet_mapSet {β : Type} (m : List (String × β)) (k k' : String) (v : β) :
    mapGet (mapSet m k v) k' = if k = k' then some v else mapGet m k' := by
  induction m with
  | nil => simp [mapSet, mapGet]
  | cons hd tl ih =>
    obtain ⟨a, b⟩ := hd
    by_cases h : a = k
    · subst h
      by_cases h2 : a = k' <;> simp [mapSet, mapGet, h2]
    · by_cases h2 : a = k'
      · subst h2
        have h3 : ¬ k = a := fun e => h e.symm
        simp [mapSet, mapGet, h, h3]
      · simp [mapSet, mapGet, h, h2, ih]

theorem mapGet_mapDelete {β : Type} (m : List (String × β)) (k k' : String) :
    mapGet (mapDelete m k) k' = if k = k' then none else mapGet m k' := by
  induction m with
  | nil => simp [mapDelete, mapGet]
  | cons hd tl ih =>
    obtain ⟨a, b⟩ := hd
    by_cases h : a = k
    · subst h
      by_cases h2 : a = k'
      · subst h2; simpa [mapDelete] using ih
      · simp [mapDelete, mapGet, h2, ih]
    · by_cases h2 : a = k'
      · subst h2
        have h3 : ¬ k = a := fun e => h e.symm
        simp [mapDelete, mapGet, h, h3]
      · simp [mapDelete, mapGet, h, h2, ih]

theorem mapSet_same {β : Type} (m : List (String × β)) (k : String) (v : β)
    (h : mapGet m k = some v) : mapSet m k v = m := by
  induction m with
  | nil => simp [mapGet] at h
  | cons hd tl ih =>
    obtain ⟨a, b⟩ := hd
    by_cases h1 : a = k
    · subst h1
      simp [mapGet] at h
      simp [mapSet, h]
    · simp [mapGet, h1] at h
      simp [mapSet, h1, ih h]

/-! ## Lemmas on `Subscribe` -/

theorem Subscribe_fst (t : String) (w : State) : (Subscribe t w).1 = w.chans.length := rfl

theorem Subscribe_chans (t : String) (w : State) :
    (Subscribe t w).2.chans = w.chans ++ [⟨[], false⟩] := rfl

theorem Subscribe_mapGet (t t' : String) (w : State) :
    mapGet (Subscribe t w).2.subscribers t' =
      if t = t' then
        some (if w.chans.length ∈ subsOf w t then subsOf w t else subsOf w t ++ [w.chans.length])
      else mapGet w.subscribers t' := by
  unfold Subscribe subsOf
  cases h : mapGet w.subscribers t with
  | some s => simp [mapGet_mapSet, h]
  | none =>
    by_cases h2 : t = t'
    · simp [mapGet_mapSet, h2]
    · simp [mapGet_mapSet, h2]

theorem Subscribe_subsOf (t t' : String) (w : State) :
    subsOf (Subscribe t w).2 t' =
      if t = t' then
        (if w.chans.length ∈ subsOf w t then subsOf w t else subsOf w t ++ [w.chans.length])
      else subsOf w t' := by
  unfold subsOf
  rw [Subscribe_mapGet]
  by_cases h : t = t' <;> simp [h, subsOf]

/-! ## Lemmas on the release closure -/

theorem unsubLocked_chans (t : String) (ch : Nat) (w : State) :
    (unsubLocked t ch w).chans = w.chans := by
  unfold unsubLocked
  cases mapGet w.subscribers t with
  | none => rfl
  | some s =>
    dsimp only
    split <;> rfl

theorem unsubLocked_mapGet (t t' : String) (ch : Nat) (w : State) :
    mapGet (unsubLocked t ch w).subscribers t' =
      if t = t' then
        (match mapGet w.subscribers t with
          | some s => if s.filter (fun c => c ≠ ch) = [] then none
                      else some (s.filter (fun c => c ≠ ch))
          | none => none)
      else mapGet w.subscribers t' := by
  unfold unsubLocked
  cases h : mapGet w.subscribers t with
  | none =>
    by_cases h2 : t = t'
    · subst h2; simp [h]
    · simp [h2]
  | some s =>
    dsimp only
    by_cases h3 : (s.filter (fun c => c ≠ ch)).length = 0
    · have h4 : s.filter (fun c => c ≠ ch) = [] := List.length_eq_zero.mp h3
      rw [if_pos h3]
      simp only [mapGet_mapDelete, mapGet_mapSet, h4]
      by_cases h2 : t = t' <;> simp [h2]
    · have h4 : ¬ s.filter (fun c => c ≠ ch) = [] := fun e => h3 (by rw [e]; rfl)
      rw [if_neg h3]
      simp only [mapGet_mapSet, h4]
      by_cases h2 : t = t' <;> simp [h2]

theorem unsubLocked_subsOf (t t' : String) (ch : Nat) (w : State) :
    subsOf (unsubLocked t ch w) t' =
      if t = t' then (subsOf w t).filter (fun c => c ≠ ch) else subsOf w t' := by
  unfold subsOf
  rw [unsubLocked_mapGet]
  by_cases h2 : t = t'
  · simp only [h2, if_true]
    cases h : mapGet w.subscribers t' with
    | none => simp
    | some s =>
      by_cases h4 : s.filter (fun c => c ≠ ch) = []
      · dsimp only; rw [if_pos h4]; simp only [Option.getD_some, Option.getD_none, h4]
      · dsimp only; rw [if_neg h4]; simp only [Option.getD_some]
  · simp [h2]

theorem isOpen_of_getElem? {w w' : State} {x : Nat} (h : w'.chans[x]? = w.chans[x]?) :
    isOpen w' x ↔ isOpen w x := by
  unfold isOpen; rw [h]

theorem isOpen_lt {w : State} {x : Nat} (h : isOpen w x) : x < w.chans.length := by
  obtain ⟨c, hc, _⟩ := h
  exact (List.getElem?_eq_some.mp hc).1

theorem not_isOpen_of_isClosed {w : State} {x : Nat} (h : isClosed w x) : ¬ isOpen w x := by
  rintro ⟨c, hc, hf⟩
  obtain ⟨c', hc', ht⟩ := h
  rw [hc] at hc'
  cases hc'
  rw [hf] at ht
  cases ht

theorem closeChan_open (ch : Nat) (w : State) (h : isOpen w ch) :
    ∃ w', closeChan ch w = .ok w' ∧ w'.subscribers = w.subscribers ∧
      w'.chans.length = w.chans.length ∧
      (∀ x, x ≠ ch → w'.chans[x]? = w.chans[x]?) ∧
      isClosed w' ch ∧ bufOf w' ch = bufOf w ch := by
  obtain ⟨c, hc, hf⟩ := h
  have hlt : ch < w.chans.length := (List.getElem?_eq_some.mp hc).1
  refine ⟨⟨w.subscribers, w.chans.set ch ⟨c.buf, true⟩⟩, ?_, rfl, ?_, ?_, ?_, ?_⟩
  · simp [closeChan, hc, hf]
  · simp
  · intro x hx
    exact List.getElem?_set_ne (fun e => hx e.symm)
  · exact ⟨⟨c.buf, true⟩, by simp [List.getElem?_set, hlt], rfl⟩
  · simp [bufOf, List.getElem?_set, hlt, hc]

theorem closeChan_closed (ch : Nat) (w : State) (h : isClosed w ch) :
    closeChan ch w = .error "close of closed channel" := by
  obtain ⟨c, hc, hf⟩ := h
  simp [closeChan, hc, hf]

/-! ## Lemmas on `Publish` -/

theorem trySend_open (ch : Nat) (msg : String) (w : State) (c : Chan)
    (hc : w.chans[ch]? = some c) (hf : c.closed = false) :
    ∃ w', trySend ch msg w = .ok w' ∧ w'.subscribers = w.subscribers ∧
      w'.chans[ch]? = some (enqueue msg c) ∧
      (∀ x, x ≠ ch → w'.chans[x]? = w.chans[x]?) := by
  have hlt : ch < w.chans.length := (List.getElem?_eq_some.mp hc).1
  by_cases hl : c.buf.length < chanCap
  · refine ⟨⟨w.subscribers, w.chans.set ch ⟨c.buf ++ [msg], c.closed⟩⟩, ?_, rfl, ?_, ?_⟩
    · simp [trySend, hc, hf, hl]
    · simp [List.getElem?_set, hlt, enqueue, hl]
    · intro x hx
      exact List.getElem?_set_ne (fun e => hx e.symm)
  · refine ⟨w, ?_, rfl, ?_, ?_⟩
    · simp [trySend, hc, hf, hl]
    · simp [enqueue, hl, hc]
    · intro x _; rfl

theorem enqueue_closed (msg : String) (c : Chan) : (enqueue msg c).closed = c.closed := by
  unfold enqueue; split <;> rfl

theorem sendAll_spec (msg : String) (l : List Nat) :
    ∀ w : State, l.Nodup → (∀ ch ∈ l, isOpen w ch) →
      ∃ w', sendAll msg l w = .ok w' ∧ w'.subscribers = w.subscribers ∧
        ∀ x, w'.chans[x]? = (w.chans[x]?).map (fun c => if x ∈ l then enqueue msg c else c) := by
  induction l with
  | nil =>
    intro w _ _
    exact ⟨w, rfl, rfl, fun x => by simp⟩
  | cons ch rest ih =>
    intro w hnd hop
    obtain ⟨c, hc, hf⟩ := hop ch (List.mem_cons_self _ _)
    obtain ⟨w1, h1, hs1, hch1, hoth1⟩ := trySend_open ch msg w c hc hf
    have hnd' := List.nodup_cons.mp hnd
    have hop1 : ∀ x ∈ rest, isOpen w1 x := by
      intro x hx
      have hne : x ≠ ch := fun e => hnd'.1 (e ▸ hx)
      rw [isOpen_of_getElem? (hoth1 x hne)]
      exact hop x (List.mem_cons_of_mem _ hx)
    obtain ⟨w2, h2, hs2, hpt⟩ := ih w1 hnd'.2 hop1
    refine ⟨w2, ?_, hs2.trans hs1, ?_⟩
    · simp [sendAll, h1, h2]
    · intro x
      rw [hpt x]
      by_cases hx : x = ch
      · subst hx
        simp [hch1, hc, hnd'.1]
      · rw [hoth1 x hx]
        simp [hx]

theorem Publish_spec (t msg : String) (w : State) (hnd : (subsOf w t).Nodup)
    (hop : ∀ ch, registered w t ch → isOpen w ch) :
    ∃ w', Publish t msg w = .ok w' ∧ w'.subscribers = w.subscribers ∧
      ∀ x, w'.chans[x]? =
        (w.chans[x]?).map (fun c => if x ∈ subsOf w t then enqueue msg c else c) := by
  unfold Publish
  cases h : mapGet w.subscribers t with
  | none =>
    refine ⟨w, rfl, rfl, fun x => ?_⟩
    simp [subsOf, h]
  | some s =>
    have hs : subsOf w t = s := by simp [subsOf, h]
    rw [hs] at hnd
    have hop' : ∀ ch ∈ s, isOpen w ch := fun ch hch => hop ch (by unfold registered; rw [hs]; exact hch)
    obtain ⟨w', h1, h2, h3⟩ := sendAll_spec msg s w hnd hop'
    exact ⟨w', h1, h2, by rw [hs]; exact h3⟩

theorem sendAll_perm (msg : String) (l l' : List Nat) (w : State) (hp : l.Perm l')
    (hnd : l.Nodup) (hop : ∀ ch ∈ l, isOpen w ch) :
    sendAll msg l w = sendAll msg l' w := by
  obtain ⟨w1, h1, h2, h3⟩ := sendAll_spec msg l w hnd hop
  obtain ⟨w2, g1, g2, g3⟩ := sendAll_spec msg l' w (hp.nodup_iff.mp hnd)
    (fun ch hch => hop ch (hp.mem_iff.mpr hch))
  rw [h1, g1]
  congr 1
  cases w1 with
  | mk s1 c1 =>
    cases w2 with
    | mk s2 c2 =>
      simp only at h2 h3 g2 g3
      congr 1
      · rw [h2, g2]
      · apply List.ext_getElem?
        intro n
        rw [h3 n, g3 n]
        simp only [hp.mem_iff]

theorem WF.nodup_subsOf {w : State} (h : WF w) (t : String) : (subsOf w t).Nodup := by
  unfold subsOf
  cases hg : mapGet w.subscribers t with
  | none => simp
  | some s => simpa using h.nodup t s hg

theorem isOpen_map_enqueue {w w' : State} {msg : String} {p : Nat → Prop} [DecidablePred p]
    (h : ∀ x, w'.chans[x]? = (w.chans[x]?).map (fun c => if p x then enqueue msg c else c))
    (x : Nat) : isOpen w' x ↔ isOpen w x := by
  unfold isOpen
  rw [h x]
  cases hw : w.chans[x]? with
  | none => simp
  | some c0 =>
    by_cases hp : p x
    · simp [hp, enqueue_closed]
    · simp [hp]

/-! ## The registry invariants are preserved -/

theorem WF_NewBroker : WF NewBroker := by
  refine ⟨?_, ?_, ?_, ?_⟩
  · intro t s h; simp [NewBroker, mapGet] at h
  · intro t s h; simp [NewBroker, mapGet] at h
  · intro t ch h; simp [registered, subsOf, NewBroker, mapGet] at h
  · intro t t' ch h; simp [registered, subsOf, NewBroker, mapGet] at h

theorem WF.not_registered_fresh {w : State} (h : WF w) (t : String) :
    ¬ registered w t w.chans.length := by
  intro hr
  exact absurd (isOpen_lt (h.isopen t _ hr)) (lt_irrefl _)

theorem Subscribe_registered {w : State} (h : WF w) (t t' : String) (x : Nat) :
    registered (Subscribe t w).2 t' x ↔
      registered w t' x ∨ (t' = t ∧ x = w.chans.length) := by
  unfold registered
  rw [Subscribe_subsOf]
  have hfresh : w.chans.length ∉ subsOf w t := h.not_registered_fresh t
  rw [if_neg hfresh]
  by_cases ht : t = t'
  · subst ht; simp
  · have ht' : ¬ t' = t := fun e => ht e.symm
    simp [ht, ht']

theorem Subscribe_isOpen (w : State) (t : String) (x : Nat) :
    isOpen (Subscribe t w).2 x ↔ isOpen w x ∨ x = w.chans.length := by
  unfold isOpen
  rw [Subscribe_chans, List.getElem?_append]
  by_cases hx : x < w.chans.length
  · have hne : x ≠ w.chans.length := Nat.ne_of_lt hx
    simp [hx, hne]
  · rw [if_neg hx]
    by_cases he : x = w.chans.length
    · subst he; simp
    · have h1 : w.chans[x]? = none := List.getElem?_eq_none (Nat.le_of_not_lt hx)
      have h2 : ([({ buf := [], closed := false } : Chan)])[x - w.chans.length]? = none := by
        apply List.getElem?_eq_none
        simp only [List.length_singleton]
        omega
      simp [h1, h2, he]

theorem Subscribe_bufOf_fresh (w : State) (t : String) :
    bufOf (Subscribe t w).2 w.chans.length = [] ∧ isOpen (Subscribe t w).2 w.chans.length := by
  constructor
  · simp [bufOf, Subscribe_chans]
  · exact (Subscribe_isOpen w t _).mpr (Or.inr rfl)

theorem Subscribe_getElem?_old (w : State) (t : String) (x : Nat) (hx : x < w.chans.length) :
    (Subscribe t w).2.chans[x]? = w.chans[x]? := by
  rw [Subscribe_chans, List.getElem?_append_left hx]

theorem WF_Subscribe {w : State} (h : WF w) (t : String) : WF (Subscribe t w).2 := by
  have hfresh : w.chans.length ∉ subsOf w t := h.not_registered_fresh t
  refine ⟨?_, ?_, ?_, ?_⟩
  · intro t' s hs
    rw [Subscribe_mapGet] at hs
    by_cases ht : t = t'
    · rw [if_pos ht, if_neg hfresh] at hs
      cases hs
      simp
    · rw [if_neg ht] at hs
      exact h.nonempty t' s hs
  · intro t' s hs
    rw [Subscribe_mapGet] at hs
    by_cases ht : t = t'
    · rw [if_pos ht, if_neg hfresh] at hs
      cases hs
      exact List.Nodup.append (h.nodup_subsOf t) (List.nodup_singleton _)
        (by simpa using hfresh)
    · rw [if_neg ht] at hs
      exact h.nodup t' s hs
  · intro t' x hr
    rw [Subscribe_isOpen]
    rcases (Subscribe_registered h t t' x).mp hr with h1 | ⟨_, h2⟩
    · exact Or.inl (h.isopen t' x h1)
    · exact Or.inr h2
  · intro t1 t2 x h1 h2
    rcases (Subscribe_registered h t t1 x).mp h1 with a | ⟨a1, a2⟩
    · rcases (Subscribe_registered h t t2 x).mp h2 with b | ⟨b1, b2⟩
      · exact h.unique t1 t2 x a b
      · exact absurd (b2 ▸ a) (h.not_registered_fresh t1)
    · rcases (Subscribe_registered h t t2 x).mp h2 with b | ⟨b1, b2⟩
      · exact absurd (a2 ▸ b) (h.not_registered_fresh t2)
      · rw [a1, b1]

theorem unsubLocked_registered {w : State} (h : WF w) (t : String) (ch : Nat)
    (hr : registered w t ch) (t' : String) (x : Nat) :
    registered (unsubLocked t ch w) t' x ↔ registered w t' x ∧ x ≠ ch := by
  unfold registered
  rw [unsubLocked_subsOf]
  by_cases ht : t = t'
  · subst ht
    simp [List.mem_filter]
  · rw [if_neg ht]
    constructor
    · intro hx
      refine ⟨hx, fun e => ht ?_⟩
      subst e
      exact h.unique t t' x hr hx
    · exact fun hx => hx.1

theorem unsub_spec {w : State} (h : WF w) (t : String) (ch : Nat) (hr : registered w t ch) :
    ∃ w', unsub t ch w = .ok w' ∧ WF w' ∧
      w'.subscribers = (unsubLocked t ch w).subscribers ∧
      (∀ t' x, registered w' t' x ↔ registered w t' x ∧ x ≠ ch) ∧
      w'.chans.length = w.chans.length ∧
      (∀ x, x ≠ ch → w'.chans[x]? = w.chans[x]?) ∧
      isClosed w' ch ∧ bufOf w' ch = bufOf w ch := by
  have hopen : isOpen (unsubLocked t ch w) ch := by
    have := h.isopen t ch hr
    unfold isOpen at this ⊢
    rw [unsubLocked_chans]; exact this
  obtain ⟨w', h1, h2, h3, h4, h5, h6⟩ := closeChan_open ch _ hopen
  rw [unsubLocked_chans] at h3 h4
  have hreg : ∀ t' x, registered w' t' x ↔ registered w t' x ∧ x ≠ ch := by
    intro t' x
    rw [← unsubLocked_registered h t ch hr t' x]
    unfold registered subsOf
    rw [h2]
  refine ⟨w', h1, ?_, h2, hreg, h3, h4, h5, ?_⟩
  · refine ⟨?_, ?_, ?_, ?_⟩
    · intro t' s hs
      rw [h2, unsubLocked_mapGet] at hs
      by_cases ht : t = t'
      · rw [if_pos ht] at hs
        cases hg : mapGet w.subscribers t with
        | none => rw [hg] at hs; simp at hs
        | some s0 =>
          rw [hg] at hs
          dsimp only at hs
          by_cases hf : s0.filter (fun c => c ≠ ch) = []
          · rw [if_pos hf] at hs; cases hs
          · rw [if_neg hf] at hs; cases hs; exact hf
      · rw [if_neg ht] at hs
        exact h.nonempty t' s hs
    · intro t' s hs
      rw [h2, unsubLocked_mapGet] at hs
      by_cases ht : t = t'
      · rw [if_pos ht] at hs
        cases hg : mapGet w.subscribers t with
        | none => rw [hg] at hs; simp at hs
        | some s0 =>
          rw [hg] at hs
          dsimp only at hs
          by_cases hf : s0.filter (fun c => c ≠ ch) = []
          · rw [if_pos hf] at hs; cases hs
          · rw [if_neg hf] at hs; cases hs
            exact List.Nodup.filter _ (h.nodup t s0 hg)
      · rw [if_neg ht] at hs
        exact h.nodup t' s hs
    · intro t' x hx
      obtain ⟨hx1, hx2⟩ := (hreg t' x).mp hx
      rw [isOpen_of_getElem? (h4 x hx2)]
      exact h.isopen t' x hx1
    · intro t1 t2 x hx1 hx2
      exact h.unique t1 t2 x ((hreg t1 x).mp hx1).1 ((hreg t2 x).mp hx2).1
  · rw [h6]; simp [bufOf, unsubLocked_chans]

theorem Publish_WF {w : State} (h : WF w) (t msg : String) :
    ∃ w', Publish t msg w = .ok w' ∧ WF w' ∧ w'.subscribers = w.subscribers ∧
      (∀ x, w'.chans[x]? =
        (w.chans[x]?).map (fun c => if x ∈ subsOf w t then enqueue msg c else c)) := by
  obtain ⟨w', h1, h2, h3⟩ := Publish_spec t msg w (h.nodup_subsOf t) (h.isopen t)
  have hreg : ∀ t' x, registered w' t' x ↔ registered w t' x := by
    intro t' x; unfold registered subsOf; rw [h2]
  refine ⟨w', h1, ⟨?_, ?_, ?_, ?_⟩, h2, h3⟩
  · intro t' s hs; rw [h2] at hs; exact h.nonempty t' s hs
  · intro t' s hs; rw [h2] at hs; exact h.nodup t' s hs
  · intro t' x hx
    rw [isOpen_map_enqueue h3 x]
    exact h.isopen t' x ((hreg t' x).mp hx)
  · intro t1 t2 x hx1 hx2
    exact h.unique t1 t2 x ((hreg t1 x).mp hx1) ((hreg t2 x).mp hx2)

/-! ## Invariant of the reachable states -/

theorem isClosed_of_getElem? {w w' : State} {x : Nat} (h : w'.chans[x]? = w.chans[x]?) :
    isClosed w' x ↔ isClosed w x := by
  unfold isClosed; rw [h]

theorem isClosed_map_enqueue {w w' : State} {msg : String} {p : Nat → Prop} [DecidablePred p]
    (h : ∀ x, w'.chans[x]? = (w.chans[x]?).map (fun c => if p x then enqueue msg c else c))
    (x : Nat) : isClosed w' x ↔ isClosed w x := by
  unfold isClosed
  rw [h x]
  cases hw : w.chans[x]? with
  | none => simp
  | some c0 =>
    by_cases hp : p x
    · simp [hp, enqueue_closed]
    · simp [hp]

theorem isClosed_lt {w : State} {x : Nat} (h : isClosed w x) : x < w.chans.length := by
  obtain ⟨c, hc, _⟩ := h
  exact (List.getElem?_eq_some.mp hc).1

theorem SysInv_init : SysInv Sys.init := by
  refine ⟨WF_NewBroker, rfl, ?_, ?_, ?_, ?_⟩
  · intro i t ch h; simp [Sys.init] at h
  · intro i h; simp [Sys.init] at h
  · intro t ch
    simp [Sys.init, registered, subsOf, NewBroker, mapGet]
  · intro i h; simp [Sys.init] at h

theorem SysInv.step_ok {s : Sys} (h : SysInv s) (op : Op) (ha : allowed s op = true) :
    ∃ s', step op s = .ok s' ∧ SysInv s' := by
  cases op with
  | subscribe t =>
    refine ⟨_, rfl, ?_⟩
    refine ⟨WF_Subscribe h.wf t, ?_, ?_, ?_, ?_, ?_⟩
    rotate_left 4
    · intro i hi
      have hc := h.closed i hi
      exact (isClosed_of_getElem? (Subscribe_getElem?_old s.state t i (isClosed_lt hc))).mpr hc
    · simp [Subscribe_chans, h.len]
    · intro i t' ch hi
      dsimp only at hi
      rw [List.getElem?_append] at hi
      by_cases hlt : i < s.issued.length
      · rw [if_pos hlt] at hi
        exact h.idx i t' ch hi
      · rw [if_neg hlt] at hi
        have h0 : i - s.issued.length = 0 := by
          by_contra hne
          have : ([(t, (Subscribe t s.state).1)] : List (String × Nat))[i - s.issued.length]?
              = none := by
            apply List.getElem?_eq_none
            simp only [List.length_singleton]; omega
          rw [this] at hi; cases hi
        rw [h0] at hi
        simp only [List.getElem?_cons_zero, Option.some.injEq, Prod.mk.injEq] at hi
        rw [← hi.2, Subscribe_fst, h.len]
        omega
    · intro i hi
      have := h.inv_lt i hi
      simp only [List.length_append, List.length_singleton]
      omega
    · intro t' ch
      dsimp only
      rw [Subscribe_registered h.wf, h.reg t' ch, h.len]
      constructor
      · rintro (⟨h1, h2⟩ | ⟨h1, h2⟩)
        · refine ⟨?_, h2⟩
          rw [List.getElem?_append_left (List.getElem?_eq_some.mp h1).1]
          exact h1
        · subst h1 h2
          refine ⟨?_, fun hm => absurd (h.inv_lt _ hm) (lt_irrefl _)⟩
          rw [List.getElem?_append_right (le_refl _)]
          simp [Subscribe_fst, h.len]
      · rintro ⟨h1, h2⟩
        rw [List.getElem?_append] at h1
        by_cases hlt : ch < s.issued.length
        · rw [if_pos hlt] at h1
          exact Or.inl ⟨h1, h2⟩
        · rw [if_neg hlt] at h1
          right
          have h0 : ch - s.issued.length = 0 := by
            by_contra hne
            have : ([(t, (Subscribe t s.state).1)] : List (String × Nat))[ch - s.issued.length]?
                = none := by
              apply List.getElem?_eq_none
              simp only [List.length_singleton]; omega
            rw [this] at h1; cases h1
          rw [h0] at h1
          simp only [List.getElem?_cons_zero, Option.some.injEq, Prod.mk.injEq] at h1
          exact ⟨h1.1.symm, by omega⟩
  | publish t m =>
    obtain ⟨w', h1, h2, h3, h4⟩ := Publish_WF h.wf t m
    refine ⟨⟨w', s.issued, s.invoked⟩, by simp [step, h1], ?_⟩
    refine ⟨h2, ?_, h.idx, h.inv_lt, ?_, ?_⟩
    rotate_left 2
    · intro i hi
      exact (isClosed_map_enqueue h4 i).mpr (h.closed i hi)
    · have hl : w'.chans.length = s.state.chans.length := by
        apply le_antisymm
        · by_contra hc
          have hlt : s.state.chans.length < w'.chans.length := Nat.lt_of_not_le hc
          have e1 := h4 s.state.chans.length
          rw [List.getElem?_eq_none (le_refl _), List.getElem?_eq_getElem hlt] at e1
          simp at e1
        · by_contra hc
          have hlt : w'.chans.length < s.state.chans.length := Nat.lt_of_not_le hc
          have e1 := h4 w'.chans.length
          rw [List.getElem?_eq_none (le_refl _), List.getElem?_eq_getElem hlt] at e1
          simp at e1
      exact hl.trans h.len
    · intro t' ch
      rw [← h.reg t' ch]
      unfold registered subsOf
      rw [h3]
  | release i =>
    simp only [allowed, Bool.and_eq_true, decide_eq_true_eq, Bool.not_eq_true',
      decide_eq_false_iff_not] at ha
    obtain ⟨hlt, hni⟩ := ha
    have hi0 : s.issued[i]? = some s.issued[i] := List.getElem?_eq_getElem hlt
    generalize s.issued[i] = p at hi0
    obtain ⟨t, ch⟩ := p
    have hi : s.issued[i]? = some (t, ch) := hi0
    have hch : ch = i := h.idx i t ch hi
    subst hch
    have hr : registered s.state t ch := (h.reg t ch).mpr ⟨hi, hni⟩
    obtain ⟨w', h1, h2, _, h4, h5, h6, h7, _⟩ := unsub_spec h.wf t ch hr
    refine ⟨⟨w', s.issued, ch :: s.invoked⟩, by simp [step, hi, h1], ?_⟩
    refine ⟨h2, h5.trans h.len, h.idx, ?_, ?_, ?_⟩
    rotate_left 2
    · intro j hj
      rcases List.mem_cons.mp hj with e | e
      · rw [e]; exact h7
      · by_cases hjc : j = ch
        · rw [hjc]; exact h7
        · exact (isClosed_of_getElem? (h6 j hjc)).mpr (h.closed j e)
    · intro j hj
      rcases List.mem_cons.mp hj with e | e
      · rw [e]; exact hlt
      · exact h.inv_lt j e
    · intro t' x
      dsimp only
      rw [h4 t' x, h.reg t' x, List.mem_cons]
      constructor
      · rintro ⟨⟨a, b⟩, c⟩
        exact ⟨a, fun hh => hh.elim c b⟩
      · rintro ⟨a, b⟩
        exact ⟨⟨a, fun hh => b (Or.inr hh)⟩, fun hh => b (Or.inl hh)⟩

theorem SysInv.run {ops : List Op} : ∀ {s s' : Sys}, SysInv s → run ops s = some s' → SysInv s' := by
  induction ops with
  | nil =>
    intro s s' h hr
    simp only [PubSub.run, Option.some.injEq] at hr
    exact hr ▸ h
  | cons op rest ih =>
    intro s s' h hr
    unfold PubSub.run at hr
    by_cases ha : allowed s op = true
    · rw [if_pos ha] at hr
      obtain ⟨s1, h1, h2⟩ := h.step_ok op ha
      rw [h1] at hr
      exact ih h2 hr
    · rw [if_neg ha] at hr
      cases hr

theorem Reachable.inv {s : Sys} (h : Reachable s) : SysInv s := by
  obtain ⟨ops, hops⟩ := h
  exact SysInv.run SysInv_init hops

/-! ## Further lemmas on `Publish` and the release closure -/

theorem Publish_eq_ref {w : State} (h : WF w) (t msg : String) :
    Publish t msg w = .ok (PublishRef t msg w) := by
  obtain ⟨w', h1, _, h3, h4⟩ := Publish_WF h t msg
  rw [h1]
  congr 1
  cases w' with
  | mk sub' chans' =>
    simp only at h3 h4
    unfold PublishRef
    congr 1
    apply List.ext_getElem?
    intro n
    rw [h4 n, List.getElem?_mapIdx]
    cases w.chans[n]? with
    | none => rfl
    | some c =>
      simp only [Option.map_some', Option.some.injEq]
      by_cases hn : n ∈ subsOf w t
      · by_cases hl : c.buf.length < 16
        · simp [hn, hl, enqueue, chanCap]
        · simp [hn, hl, enqueue, chanCap]
      · simp [hn]

theorem Publish_bufOf {w w' : State} {t msg : String}
    (h4 : ∀ x, w'.chans[x]? =
      (w.chans[x]?).map (fun c => if x ∈ subsOf w t then enqueue msg c else c))
    (ch : Nat) (ho : ch ∈ subsOf w t → isOpen w ch) :
    bufOf w' ch =
      if ch ∈ subsOf w t ∧ (bufOf w ch).length < 16 then bufOf w ch ++ [msg] else bufOf w ch := by
  unfold bufOf
  rw [h4 ch]
  cases hc : w.chans[ch]? with
  | none =>
    have : ch ∉ subsOf w t := by
      intro hm
      obtain ⟨c, hc', _⟩ := ho hm
      rw [hc] at hc'; cases hc'
    simp [this]
  | some c =>
    by_cases hn : ch ∈ subsOf w t
    · by_cases hl : c.buf.length < 16
      · simp [hn, hl, enqueue, chanCap]
      · simp [hn, hl, enqueue, chanCap]
    · simp [hn]

theorem publishAll_buf (t : String) (ch : Nat) (ms : List String) :
    ∀ w : State, WF w → registered w t ch → (bufOf w ch).length ≤ 16 →
      ∃ w', publishAll t ms w = .ok w' ∧ WF w' ∧ w'.subscribers = w.subscribers ∧
        bufOf w' ch = (bufOf w ch ++ ms).take 16 := by
  induction ms with
  | nil =>
    intro w hw _ hl
    refine ⟨w, rfl, hw, rfl, ?_⟩
    rw [List.append_nil, List.take_of_length_le hl]
  | cons m rest ih =>
    intro w hw hr hl
    obtain ⟨w1, h1, h2, h3, h4⟩ := Publish_WF hw t m
    have hb := Publish_bufOf h4 ch (fun hm => hw.isopen t ch hm)
    have hr1 : registered w1 t ch := by
      unfold registered subsOf at hr ⊢; rw [h3]; exact hr
    have hmem : ch ∈ subsOf w t := hr
    by_cases hlt : (bufOf w ch).length < 16
    · rw [if_pos ⟨hmem, hlt⟩] at hb
      have hl1 : (bufOf w1 ch).length ≤ 16 := by
        rw [hb, List.length_append, List.length_singleton]; omega
      obtain ⟨w2, g1, g2, g3, g4⟩ := ih w1 h2 hr1 hl1
      refine ⟨w2, by simp [publishAll, h1, g1], g2, g3.trans h3, ?_⟩
      rw [g4, hb, List.append_assoc, List.singleton_append]
    · rw [if_neg (fun hh => hlt hh.2)] at hb
      have hl1 : (bufOf w1 ch).length ≤ 16 := by rw [hb]; exact hl
      obtain ⟨w2, g1, g2, g3, g4⟩ := ih w1 h2 hr1 hl1
      refine ⟨w2, by simp [publishAll, h1, g1], g2, g3.trans h3, ?_⟩
      rw [g4, hb, List.take_append_of_le_length (by omega),
        List.take_append_of_le_length (by omega)]

theorem unsubLocked_of_not_registered {w : State} (h : WF w) (t : String) (ch : Nat)
    (hn : ¬ registered w t ch) : unsubLocked t ch w = w := by
  unfold unsubLocked
  cases hg : mapGet w.subscribers t with
  | none => rfl
  | some s0 =>
    have hs : subsOf w t = s0 := by simp [subsOf, hg]
    have hf : s0.filter (fun c => c ≠ ch) = s0 := by
      rw [List.filter_eq_self]
      intro a ha
      have : a ≠ ch := fun e => hn (by unfold registered; rw [hs, ← e]; exact ha)
      simpa using this
    have hne : s0 ≠ [] := h.nonempty t s0 hg
    have hlen : ¬ (s0.filter (fun c => c ≠ ch)).length = 0 := by
      rw [hf]; exact fun e => hne (List.length_eq_zero.mp e)
    dsimp only
    rw [if_neg hlen, hf, mapSet_same _ _ _ hg]

/-! ## The claims on the broker -/

/-- C1: on every well-formed registry state `Publish` returns normally and
equals its reference definition: (i) a mailbox registered under the topic with
fewer than 16 messages gets the message at its tail, (ii) a registered mailbox
holding 16 messages is unchanged, (iii) a mailbox not registered under the topic
is unchanged, (iv) the topic map is unchanged; with no subscribers nothing
changes at all. -/
theorem Publish_reference (w : State) (hw : WF w) (t msg : String) :
    Publish t msg w = .ok (PublishRef t msg w) ∧
    (∀ ch, registered w t ch → (bufOf w ch).length < 16 →
      bufOf (PublishRef t msg w) ch = bufOf w ch ++ [msg] ∧ isOpen (PublishRef t msg w) ch) ∧
    (∀ ch, registered w t ch → (bufOf w ch).length = 16 →
      (PublishRef t msg w).chans[ch]? = w.chans[ch]?) ∧
    (∀ ch, ¬ registered w t ch → (PublishRef t msg w).chans[ch]? = w.chans[ch]?) ∧
    (PublishRef t msg w).subscribers = w.subscribers ∧
    ((∀ ch, ¬ registered w t ch) → PublishRef t msg w = w) := by
  have hpt : ∀ ch, (PublishRef t msg w).chans[ch]? =
      (w.chans[ch]?).map (fun c =>
        if ch ∈ subsOf w t ∧ c.buf.length < 16 then ⟨c.buf ++ [msg], c.closed⟩ else c) := by
    intro ch
    simp only [PublishRef, List.getElem?_mapIdx]
  refine ⟨Publish_eq_ref hw t msg, ?_, ?_, ?_, rfl, ?_⟩
  · intro ch hr hl
    obtain ⟨c, hc, hf⟩ := hw.isopen t ch hr
    have hr' : ch ∈ subsOf w t := hr
    have hl' : c.buf.length < 16 := by simpa [bufOf, hc] using hl
    constructor
    · simp [bufOf, hpt ch, hc, hr', hl']
    · exact ⟨⟨c.buf ++ [msg], c.closed⟩, by simp [hpt ch, hc, hr', hl'], hf⟩
  · intro ch hr hl
    obtain ⟨c, hc, hf⟩ := hw.isopen t ch hr
    have hl' : ¬ c.buf.length < 16 := by
      have : c.buf.length = 16 := by simpa [bufOf, hc] using hl
      omega
    simp [hpt ch, hc, hl']
  · intro ch hr
    have hr' : ch ∉ subsOf w t := hr
    rw [hpt ch]
    cases w.chans[ch]? with
    | none => rfl
    | some c => simp [hr']
  · intro hnone
    cases w with
    | mk sub chans =>
      unfold PublishRef
      congr 1
      apply List.ext_getElem?
      intro n
      have hn : n ∉ subsOf ⟨sub, chans⟩ t := hnone n
      rw [List.getElem?_mapIdx]
      cases chans[n]? with
      | none => rfl
      | some c => simp [hn]

/-- C2: after `Subscribe(t)` and the calls `Publish(t, m1)`, ..., `Publish(t, mn)`
with nothing dequeued, every call returns normally and the new mailbox holds the
first `min(n, 16)` messages in publish order. -/
theorem publish_sequence (w : State) (hw : WF w) (t : String) (ms : List String) :
    ∃ w', publishAll t ms (Subscribe t w).2 = .ok w' ∧
      bufOf w' (Subscribe t w).1 = ms.take 16 ∧
      (bufOf w' (Subscribe t w).1).length = min ms.length 16 := by
  have hw1 := WF_Subscribe hw t
  have hr : registered (Subscribe t w).2 t (Subscribe t w).1 :=
    (Subscribe_registered hw t t _).mpr (Or.inr ⟨rfl, rfl⟩)
  have hb : bufOf (Subscribe t w).2 (Subscribe t w).1 = [] := (Subscribe_bufOf_fresh w t).1
  obtain ⟨w', h1, _, _, h4⟩ :=
    publishAll_buf t (Subscribe t w).1 ms (Subscribe t w).2 hw1 hr (by rw [hb]; simp)
  rw [hb, List.nil_append] at h4
  exact ⟨w', h1, h4, by rw [h4, List.length_take, Nat.min_comm]⟩

/-- C1 at a concrete state: one subscriber of "news", one publish. -/
theorem Publish_reference_witness :
    WF (Subscribe "news" NewBroker).2 ∧
    Publish "news" "hi" (Subscribe "news" NewBroker).2 =
      .ok ⟨[("news", [0])], [⟨["hi"], false⟩]⟩ :=
  ⟨WF_Subscribe WF_NewBroker "news",
   (Publish_reference (Subscribe "news" NewBroker).2 (WF_Subscribe WF_NewBroker "news")
      "news" "hi").1.trans (congrArg Except.ok (by decide))⟩

/-- C2 at a concrete input: seventeen publishes, the seventeenth is dropped. -/
theorem publish_sequence_witness :
    WF NewBroker ∧
    ∃ w', publishAll "t" ["1", "2", "3", "4", "5", "6", "7", "8", "9", "10", "11", "12", "13",
        "14", "15", "16", "17"] (Subscribe "t" NewBroker).2 = .ok w' ∧
      bufOf w' (Subscribe "t" NewBroker).1 =
        ["1", "2", "3", "4", "5", "6", "7", "8", "9", "10", "11", "12", "13", "14", "15",
          "16"] :=
  ⟨WF_NewBroker,
   (publish_sequence NewBroker WF_NewBroker "t" ["1", "2", "3", "4", "5", "6", "7", "8", "9",
      "10", "11", "12", "13", "14", "15", "16", "17"]).imp (fun _ h => ⟨h.1, h.2.1⟩)⟩

theorem WF.hasKey_iff {w : State} (h : WF w) (t : String) :
    hasKey w t ↔ ∃ ch, registered w t ch := by
  unfold hasKey registered subsOf
  cases hg : mapGet w.subscribers t with
  | none => simp
  | some set =>
    have hne := h.nonempty t set hg
    cases set with
    | nil => exact absurd rfl hne
    | cons a rest => simp

/-- C3: in every reachable state a topic is a key of the registry exactly when a
mailbox is registered under it, and no key maps to an empty set; releasing the
only subscriber of a topic removes the key, and a following `Subscribe` of the
topic makes its set one new, empty, open mailbox. -/
theorem registry_keys_nonempty (s : Sys) (h : Reachable s) :
    (∀ t, hasKey s.state t ↔ ∃ ch, registered s.state t ch) ∧
    (∀ t set, mapGet s.state.subscribers t = some set → set ≠ []) ∧
    (∀ t ch, subsOf s.state t = [ch] →
      ∃ w1, unsub t ch s.state = .ok w1 ∧ ¬ hasKey w1 t ∧
        subsOf (Subscribe t w1).2 t = [(Subscribe t w1).1] ∧
        (Subscribe t w1).1 ≠ ch ∧
        bufOf (Subscribe t w1).2 (Subscribe t w1).1 = [] ∧
        isOpen (Subscribe t w1).2 (Subscribe t w1).1) := by
  have hw := h.inv.wf
  refine ⟨hw.hasKey_iff, hw.nonempty, ?_⟩
  intro t ch hs
  have hr : registered s.state t ch := by unfold registered; rw [hs]; simp
  obtain ⟨w1, h1, h2, _, h4, h5, _, _, _⟩ := unsub_spec hw t ch hr
  have hnone : ∀ x, ¬ registered w1 t x := by
    intro x hx
    obtain ⟨hx1, hx2⟩ := (h4 t x).mp hx
    unfold registered at hx1
    rw [hs] at hx1
    exact hx2 (List.mem_singleton.mp hx1)
  have hkey : ¬ hasKey w1 t := fun hk => by
    obtain ⟨x, hx⟩ := (h2.hasKey_iff t).mp hk
    exact hnone x hx
  have hempty : subsOf w1 t = [] := List.eq_nil_iff_forall_not_mem.mpr hnone
  refine ⟨w1, h1, hkey, ?_, ?_, (Subscribe_bufOf_fresh w1 t).1, (Subscribe_bufOf_fresh w1 t).2⟩
  · rw [Subscribe_subsOf, if_pos rfl, hempty]
    simp [Subscribe_fst]
  · rw [Subscribe_fst, h5]
    exact Nat.ne_of_gt (isOpen_lt (hw.isopen t ch hr))

/-- C3 at a concrete state: after one `Subscribe` the topic is a key and has a
subscriber. -/
theorem registry_keys_nonempty_witness :
    Reachable ⟨⟨[("a", [0])], [⟨[], false⟩]⟩, [("a", 0)], []⟩ ∧
    (hasKey (⟨[("a", [0])], [⟨[], false⟩]⟩ : State) "a" ↔
      ∃ ch, registered (⟨[("a", [0])], [⟨[], false⟩]⟩ : State) "a" ch) :=
  ⟨⟨[.subscribe "a"], by decide⟩,
   (registry_keys_nonempty ⟨⟨[("a", [0])], [⟨[], false⟩]⟩, [("a", 0)], []⟩
      ⟨[.subscribe "a"], by decide⟩).1 "a"⟩

/-- C4: in every reachable state a mailbox is registered under a topic exactly
when a `Subscribe` of that topic returned it and its release handle has not been
invoked; so a registered mailbox is open and registered under one topic only, and
`Publish` never sends on a closed mailbox (it returns normally). -/
theorem registered_iff_active (s : Sys) (h : Reachable s) :
    (∀ t ch, registered s.state t ch ↔
      ∃ i, s.issued[i]? = some (t, ch) ∧ i ∉ s.invoked) ∧
    (∀ t ch, registered s.state t ch → isOpen s.state ch) ∧
    (∀ t t' ch, registered s.state t ch → registered s.state t' ch → t = t') ∧
    (∀ t msg, ∃ w, Publish t msg s.state = .ok w) := by
  have hi := h.inv
  refine ⟨?_, hi.wf.isopen, hi.wf.unique, ?_⟩
  · intro t ch
    rw [hi.reg t ch]
    constructor
    · rintro ⟨a, b⟩
      exact ⟨ch, a, b⟩
    · rintro ⟨i, a, b⟩
      have := hi.idx i t ch a
      subst this
      exact ⟨a, b⟩
  · intro t msg
    obtain ⟨w, hw, _⟩ := Publish_WF hi.wf t msg
    exact ⟨w, hw⟩

/-- C4 at a concrete state: after one `Subscribe`, `Publish` returns normally. -/
theorem registered_iff_active_witness :
    Reachable ⟨⟨[("b", [0])], [⟨[], false⟩]⟩, [("b", 0)], []⟩ ∧
    ∃ w, Publish "b" "m" (⟨[("b", [0])], [⟨[], false⟩]⟩ : State) = .ok w :=
  ⟨⟨[.subscribe "b"], by decide⟩,
   (registered_iff_active ⟨⟨[("b", [0])], [⟨[], false⟩]⟩, [("b", 0)], []⟩
      ⟨[.subscribe "b"], by decide⟩).2.2.2 "b" "m"⟩

/-- C5, as the claim states it, fails: the second invocation of a release handle
does not complete; it panics on closing the closed mailbox again. -/
theorem double_release_panics :
    unsub "a" 0 (Subscribe "a" NewBroker).2 = .ok ⟨[], [⟨[], true⟩]⟩ ∧
    unsub "a" 0 ⟨[], [⟨[], true⟩]⟩ = .error "close of closed channel" := by
  constructor <;> rfl

/-- C5 amended: the release handle has no guard. In every reachable state, for
every handle that was already invoked, a second invocation leaves the registry
unchanged in its locked part and then panics at `close` with
"close of closed channel". -/
theorem second_release (s : Sys) (h : Reachable s) (i : Nat) (t : String) (ch : Nat)
    (hi : s.issued[i]? = some (t, ch)) (hinv : i ∈ s.invoked) :
    unsubLocked t ch s.state = s.state ∧
    unsub t ch s.state = .error "close of closed channel" ∧
    step (.release i) s = .error "close of closed channel" := by
  have hI := h.inv
  have hch : ch = i := hI.idx i t ch hi
  subst hch
  have hc : isClosed s.state ch := hI.closed ch hinv
  have hn : ¬ registered s.state t ch := fun hr =>
    not_isOpen_of_isClosed hc (hI.wf.isopen t ch hr)
  have h1 := unsubLocked_of_not_registered hI.wf t ch hn
  have h2 : unsub t ch s.state = .error "close of closed channel" := by
    unfold unsub; rw [h1]; exact closeChan_closed ch _ hc
  refine ⟨h1, h2, ?_⟩
  simp [step, hi, h2]

/-- C5 amended at a concrete state: subscribe, release, release again. -/
theorem second_release_witness :
    Reachable ⟨⟨[], [⟨[], true⟩]⟩, [("a", 0)], [0]⟩ ∧
    step (.release 0) ⟨⟨[], [⟨[], true⟩]⟩, [("a", 0)], [0]⟩ =
      .error "close of closed channel" :=
  ⟨⟨[.subscribe "a", .release 0], by decide⟩,
   (second_release ⟨⟨[], [⟨[], true⟩]⟩, [("a", 0)], [0]⟩
      ⟨[.subscribe "a", .release 0], by decide⟩ 0 "a" 0 rfl (by decide)).2.2⟩

/-! ## Lemmas on the text helpers -/

theorem splitChars_nosep (sep : Char) (n : Nat) (l : List Char) (h : sep ∉ l) :
    splitChars sep (n + 1) l = [l] := by
  cases n with
  | zero => rfl
  | succ k => simp [splitChars, h]

theorem splitChars_sep (sep : Char) (n : Nat) (a rest : List Char) (h : sep ∉ a) :
    splitChars sep (n + 2) (a ++ sep :: rest) = a :: splitChars sep (n + 1) rest := by
  have hp : ∀ c ∈ a, (decide (c ≠ sep)) = true := by
    intro c hc
    have : c ≠ sep := fun e => h (e ▸ hc)
    simpa using this
  have h1 : (a ++ sep :: rest).takeWhile (fun c => decide (c ≠ sep)) = a := by
    rw [List.takeWhile_append_of_pos hp]
    simp [List.takeWhile]
  have h2 : (a ++ sep :: rest).dropWhile (fun c => decide (c ≠ sep)) = sep :: rest := by
    rw [List.dropWhile_append_of_pos hp]
    simp [List.dropWhile]
  have hm : sep ∈ a ++ sep :: rest := by simp
  simp only [splitChars, hm, if_true, h1, h2, List.tail_cons]

theorem SplitN_nosep (kw : String) (n : Nat) (h : ' ' ∉ kw.data) :
    SplitN kw ' ' (n + 1) = [kw] := by
  simp [SplitN, splitChars_nosep _ _ _ h]

theorem SplitN_sep (kw r : String) (n : Nat) (h : ' ' ∉ kw.data) :
    SplitN (kw ++ " " ++ r) ' ' (n + 2) = kw :: SplitN r ' ' (n + 1) := by
  have hd : (kw ++ " " ++ r).data = kw.data ++ ' ' :: r.data := by
    simp [String.data_append]
  simp [SplitN, hd, splitChars_sep _ _ _ _ h]

theorem SplitN_one (r : String) : SplitN r ' ' 1 = [r] := by
  simp [SplitN, splitChars]

theorem ne_empty_data {s : String} (h : s ≠ "") : s.data ≠ [] := by
  intro e
  apply h
  apply String.ext
  rw [e]

theorem TrimSpace_self (s : String)
    (hhead : ∀ c, s.data.head? = some c → isSpace c = false)
    (hlast : ∀ c, s.data.getLast? = some c → isSpace c = false) :
    TrimSpace s = s := by
  apply String.ext
  show (s.data.dropWhile isSpace).rdropWhile isSpace = s.data
  have h1 : s.data.dropWhile isSpace = s.data := by
    cases hs : s.data with
    | nil => rfl
    | cons a rest =>
      have := hhead a (by rw [hs]; rfl)
      simp [List.dropWhile, this]
  rw [h1, List.rdropWhile_eq_self_iff]
  intro hl
  have := hlast (s.data.getLast hl) (List.getLast?_eq_getLast _ hl)
  simp [this]

theorem findTopic_none (topic : String) (l : List sub) (h : ∀ s ∈ l, s.topic ≠ topic) :
    findTopic topic l = none := by
  induction l with
  | nil => rfl
  | cons a rest ih =>
    have ha : ¬ a.topic = topic := h a (List.mem_cons_self _ _)
    simp [findTopic, ha, ih (fun s hs => h s (List.mem_cons_of_mem _ hs))]

theorem SplitN_length_pos (r : String) (n : Nat) : 0 < (SplitN r ' ' (n + 1)).length := by
  cases n with
  | zero => simp [SplitN_one]
  | succ k =>
    unfold SplitN
    rw [List.length_map]
    unfold splitChars
    split <;> simp

theorem parts_kw (kw more : String) (n : Nat) (hkw : ' ' ∉ kw.data) (hm : ArgTail more) :
    ∃ rest, SplitN (kw ++ more) ' ' (n + 2) = kw :: rest := by
  rcases hm with h | ⟨r, h⟩
  · subst h
    refine ⟨[], ?_⟩
    rw [String.append_empty]; exact SplitN_nosep kw (n + 1) hkw
  · subst h
    refine ⟨SplitN r ' ' (n + 1), ?_⟩
    rw [← String.append_assoc]; exact SplitN_sep kw r n hkw

theorem ne_empty_of_append {a b : String} (h : a ≠ "") : a ++ b ≠ "" := by
  intro e
  apply h
  apply String.ext
  have := congrArg String.data e
  rw [String.data_append] at this
  exact (List.append_eq_nil.mp this).1

/-! ## The claims on the connection handler -/

/-- C9: a usage error is answered with exactly its ERR line, leaves the
connection's subscription list, the registry and the record of broker calls
unchanged, and the handler goes on reading commands. -/
theorem usage_errors (ToUpper : String → String) (c : Conn) (text resp : String)
    (h : UsageError ToUpper c.subs (TrimSpace text) resp) :
    handleLine ToUpper text c = .ok (⟨c.broker, c.subs, c.out ++ [resp], c.calls⟩, false) ∧
    ∀ rest, handleConnection ToUpper (text :: rest) c =
      handleConnection ToUpper rest ⟨c.broker, c.subs, c.out ++ [resp], c.calls⟩ := by
  have key : handleLine ToUpper text c =
      .ok (⟨c.broker, c.subs, c.out ++ [resp], c.calls⟩, false) := by
    generalize hl : TrimSpace text = line at h
    unfold handleLine
    simp only [hl]
    cases h with
    | subscribeNoTopic _ h1 h2 h3 =>
      simp [h1, SplitN_nosep line 2 h2, h3]
    | unsubscribeNoTopic _ h1 h2 h3 =>
      simp [h1, SplitN_nosep line 2 h2, h3]
    | publishNoTopic _ h1 h2 h3 =>
      simp [h1, SplitN_nosep line 2 h2, h3]
    | publishNoMessage kw t h1 h2 h3 =>
      have hne : kw ++ " " ++ t ≠ "" := by
        intro e
        have := congrArg String.length e
        simp at this
        exact absurd this.1.2 (by decide)
      simp [hne, SplitN_sep kw t 1 h1, SplitN_nosep t 1 h2, h3]
    | notSubscribed kw t more h1 h2 h3 h4 h5 =>
      have hne : kw ++ " " ++ t ++ more ≠ "" := by
        intro e
        have := congrArg String.length e
        simp at this
        exact absurd this.1.1.2 (by decide)
      obtain ⟨rest, hrest⟩ := parts_kw t more 0 h2 h3
      have hp : SplitN (kw ++ " " ++ t ++ more) ' ' 3 = kw :: t :: rest := by
        rw [String.append_assoc, SplitN_sep kw (t ++ more) 1 h1, hrest]
      simp [hne, hp, h4, findTopic_none t c.subs h5]
    | unknown kw more h1 h2 h3 h4 h5 h6 h7 =>
      have hne : kw ++ more ≠ "" := ne_empty_of_append h1
      obtain ⟨rest, hrest⟩ := parts_kw kw more 1 h2 h3
      simp [hne, hrest, h4, h5, h6, h7]
  refine ⟨key, fun rest => ?_⟩
  conv_lhs => unfold handleConnection
  rw [key]

/-- C9 at a concrete input: scenario 5, the line "FOO bar". -/
theorem usage_errors_witness :
    handleLine asciiToUpper "FOO bar" (Conn.start NewBroker) =
      .ok (⟨NewBroker, [], ["ERR unknown command FOO"], []⟩, false) :=
  (usage_errors asciiToUpper (Conn.start NewBroker) "FOO bar" "ERR unknown command FOO"
    (UsageError.unknown "FOO" " bar" (by decide) (by decide) (Or.inr ⟨"bar", rfl⟩)
      (by decide) (by decide) (by decide) (by decide))).1

/-- C7, the code at the failing input: the line "SUBSCRIBE  x" (two spaces) makes
the handler call `Subscribe` with the empty topic and answer with an OK line. -/
theorem subscribe_empty_topic :
    handleLine asciiToUpper "SUBSCRIBE  x" (Conn.start NewBroker) =
      .ok (⟨⟨[("", [0])], [⟨[], false⟩]⟩, [⟨"", 0⟩], ["OK subscribed to "],
        [.subscribe "" 0]⟩, false) := rfl

/-- C8, as the claim states it, fails: a message that ends in a space is
published without that space. -/
theorem publish_trailing_space :
    handleLine asciiToUpper ("PUBLISH" ++ " " ++ "news" ++ " " ++ "hello ")
        (Conn.start (Subscribe "news" NewBroker).2) =
      .ok (⟨⟨[("news", [0])], [⟨["hello"], false⟩]⟩, [], ["OK"],
        [.publish "news" "hello"]⟩, false) ∧
    "hello" ≠ "hello " :=
  ⟨rfl, by decide⟩

theorem getLast?_append_cons {α : Type} (a : List α) (x : α) (b : List α) (hb : b ≠ []) :
    (a ++ x :: b).getLast? = b.getLast? := by
  rw [List.getLast?_append_of_ne_nil a (List.cons_ne_nil x b)]
  cases b with
  | nil => exact absurd rfl hb
  | cons y ys => exact List.getLast?_cons_cons

/-- C8 amended: for a topic without a space and a non-empty message that does
not end in white space, the line `PUBLISH t m` makes the handler call
`Publish(t, m)` once, with `m` unchanged, and answer with the one line `OK`. -/
theorem publish_line (ToUpper : String → String) (hU : ToUpper "PUBLISH" = "PUBLISH")
    (c : Conn) (hw : WF c.broker) (t m : String) (_ht : t ≠ "") (ht : ' ' ∉ t.data)
    (hm : m ≠ "") (hm2 : endsInSpace m = false) :
    handleLine ToUpper ("PUBLISH" ++ " " ++ t ++ " " ++ m) c =
      .ok (⟨PublishRef t m c.broker, c.subs, c.out ++ ["OK"],
        c.calls ++ [.publish t m]⟩, false) := by
  have hmd : m.data ≠ [] := ne_empty_data hm
  have hd : ("PUBLISH" ++ " " ++ t ++ " " ++ m).data =
      'P' :: ("UBLISH".data ++ ' ' :: t.data) ++ ' ' :: m.data := by
    simp [String.data_append]
  have htrim : TrimSpace ("PUBLISH" ++ " " ++ t ++ " " ++ m) =
      "PUBLISH" ++ " " ++ t ++ " " ++ m := by
    apply TrimSpace_self
    · intro ch hc
      rw [hd] at hc
      simp only [List.cons_append, List.head?_cons, Option.some.injEq] at hc
      subst hc; decide
    · intro ch hc
      rw [hd, getLast?_append_cons _ _ _ hmd] at hc
      simpa [endsInSpace, hc] using hm2
  have hne : "PUBLISH" ++ " " ++ t ++ " " ++ m ≠ "" :=
    ne_empty_of_append (ne_empty_of_append (ne_empty_of_append (ne_empty_of_append
      (by decide))))
  have hp : SplitN ("PUBLISH" ++ " " ++ t ++ " " ++ m) ' ' 3 = ["PUBLISH", t, m] := by
    have e1 : "PUBLISH" ++ " " ++ t ++ " " ++ m = "PUBLISH" ++ " " ++ (t ++ " " ++ m) := by
      simp [String.append_assoc]
    rw [e1, SplitN_sep "PUBLISH" _ 1 (by decide), SplitN_sep t m 0 ht, SplitN_one]
  have h1 : ¬ ("PUBLISH" = "SUBSCRIBE") := by decide
  have h2 : ¬ ("PUBLISH" = "UNSUBSCRIBE") := by decide
  unfold handleLine
  simp only [htrim, hp]
  rw [if_neg hne]
  simp only [List.getD_cons_zero, List.getD_cons_succ, hU, h1, h2, if_false, List.length_cons,
    List.length_nil, Publish_eq_ref hw t m]
  rfl

/-- C8 amended at a concrete input: scenario 1, "PUBLISH news hello world". -/
theorem publish_line_witness :
    handleLine asciiToUpper ("PUBLISH" ++ " " ++ "news" ++ " " ++ "hello world")
        (Conn.start (Subscribe "news" NewBroker).2) =
      .ok (⟨PublishRef "news" "hello world" (Subscribe "news" NewBroker).2, [], [] ++ ["OK"],
        [] ++ [.publish "news" "hello world"]⟩, false) :=
  publish_line asciiToUpper (by decide) (Conn.start (Subscribe "news" NewBroker).2)
    (WF_Subscribe WF_NewBroker "news") "news" "hello world" (by decide) (by decide)
    (by decide) (by decide)

/-! ## The handler loop keeps its invariant -/

theorem HInv_start {w : State} (h : WF w) : HInv w [] [] := by
  refine ⟨h, ?_, ?_, ?_, ?_, ?_, ?_, ?_⟩ <;> simp

theorem HInv_subscribe {b : State} {calls : List Call} {l : List sub} (h : HInv b calls l)
    (t : String) :
    HInv (Subscribe t b).2 (calls ++ [Call.subscribe t (Subscribe t b).1])
      (l ++ [⟨t, (Subscribe t b).1⟩]) := by
  rw [Subscribe_fst]
  have hl_lt : ∀ s ∈ l, s.ch < b.chans.length := fun s hs =>
    isOpen_lt (h.wf.isopen _ _ (h.reg s hs))
  have hnew_notin : (⟨t, b.chans.length⟩ : sub) ∉ l := fun hm =>
    absurd (hl_lt _ hm) (lt_irrefl _)
  have hsub_old : ∀ t' c0, Call.subscribe t' c0 ∈ calls ++ [Call.subscribe t b.chans.length] →
      Call.subscribe t' c0 ∈ calls ∨ (t' = t ∧ c0 = b.chans.length) := by
    intro t' c0 hm
    rcases List.mem_append.mp hm with h1 | h1
    · exact Or.inl h1
    · simp only [List.mem_singleton, Call.subscribe.injEq] at h1
      exact Or.inr h1
  refine ⟨WF_Subscribe h.wf t, ?_, ?_, ?_, ?_, ?_, ?_, ?_⟩
  · intro s hs
    rcases List.mem_append.mp hs with h1 | h1
    · exact (Subscribe_registered h.wf t _ _).mpr (Or.inl (h.reg s h1))
    · rw [List.mem_singleton] at h1
      subst h1
      exact (Subscribe_registered h.wf t _ _).mpr (Or.inr ⟨rfl, rfl⟩)
  · rw [List.map_append, List.nodup_append]
    refine ⟨h.nodup, List.nodup_singleton _, ?_⟩
    intro x hx1 hx2
    simp only [List.map_cons, List.map_nil, List.mem_singleton] at hx2
    obtain ⟨s, hs, hsx⟩ := List.mem_map.mp hx1
    have := hl_lt s hs
    omega
  · intro t' c0 hm
    rw [List.count_append, List.count_append]
    have hz : List.count (Call.unsub t' c0) [Call.subscribe t b.chans.length] = 0 := by
      apply List.count_eq_zero_of_not_mem
      simp
    rw [hz]
    rcases hsub_old t' c0 hm with h1 | ⟨h1, h2⟩
    · have hne : ¬ ((⟨t', c0⟩ : sub) = ⟨t, b.chans.length⟩) := by
        intro e
        have := h.createdLt t' c0 h1
        simp only [sub.mk.injEq] at e
        omega
      have hz2 : List.count (⟨t', c0⟩ : sub) [⟨t, b.chans.length⟩] = 0 := by
        apply List.count_eq_zero_of_not_mem
        simpa using hne
      rw [hz2]
      exact h.count t' c0 h1
    · subst h1 h2
      have hz1 : List.count (Call.unsub t' b.chans.length) calls = 0 := by
        apply List.count_eq_zero_of_not_mem
        intro hm2
        exact absurd (h.createdLt _ _ (h.unsubCreated _ _ hm2)) (lt_irrefl _)
      have hz2 : List.count (⟨t', b.chans.length⟩ : sub) l = 0 :=
        List.count_eq_zero_of_not_mem hnew_notin
      rw [hz1, hz2]
      simp
  · intro t' c0 hm
    rcases List.mem_append.mp hm with h1 | h1
    · exact List.mem_append_left _ (h.unsubCreated t' c0 h1)
    · simp at h1
  · intro s hs
    rcases List.mem_append.mp hs with h1 | h1
    · exact List.mem_append_left _ (h.listCreated s h1)
    · rw [List.mem_singleton] at h1
      subst h1
      exact List.mem_append_right _ (List.mem_singleton.mpr rfl)
  · intro t0 c0 t' hm hr
    by_cases hc : c0 = b.chans.length
    · exact ⟨⟨t, b.chans.length⟩, List.mem_append_right _ (List.mem_singleton.mpr rfl), hc.symm⟩
    · have hr' : registered b t' c0 := by
        rcases (Subscribe_registered h.wf t t' c0).mp hr with a | ⟨_, a⟩
        · exact a
        · exact absurd a hc
      have hm' : Call.subscribe t0 c0 ∈ calls := by
        rcases hsub_old t0 c0 hm with a | ⟨_, a⟩
        · exact a
        · exact absurd a hc
      obtain ⟨s, hs, hsc⟩ := h.createdReg t0 c0 t' hm' hr'
      exact ⟨s, List.mem_append_left _ hs, hsc⟩
  · intro t' c0 hm
    rw [Subscribe_chans, List.length_append, List.length_singleton]
    rcases hsub_old t' c0 hm with h1 | ⟨_, h2⟩
    · have := h.createdLt t' c0 h1; omega
    · omega

theorem HInv_publish {b : State} {calls : List Call} {l : List sub} (h : HInv b calls l)
    (t m : String) :
    ∃ b', Publish t m b = .ok b' ∧ HInv b' (calls ++ [Call.publish t m]) l := by
  obtain ⟨b', h1, h2, h3, h4⟩ := Publish_WF h.wf t m
  have hreg : ∀ t' x, registered b' t' x ↔ registered b t' x := by
    intro t' x; unfold registered subsOf; rw [h3]
  have hsub : ∀ t' c0, Call.subscribe t' c0 ∈ calls ++ [Call.publish t m] →
      Call.subscribe t' c0 ∈ calls := by
    intro t' c0 hm
    rcases List.mem_append.mp hm with a | a
    · exact a
    · simp at a
  have hlen : b'.chans.length = b.chans.length := by
    apply le_antisymm
    · by_contra hc
      have hlt : b.chans.length < b'.chans.length := Nat.lt_of_not_le hc
      have e1 := h4 b.chans.length
      rw [List.getElem?_eq_none (le_refl _), List.getElem?_eq_getElem hlt] at e1
      simp at e1
    · by_contra hc
      have hlt : b'.chans.length < b.chans.length := Nat.lt_of_not_le hc
      have e1 := h4 b'.chans.length
      rw [List.getElem?_eq_none (le_refl _), List.getElem?_eq_getElem hlt] at e1
      simp at e1
  refine ⟨b', h1, h2, ?_, h.nodup, ?_, ?_, ?_, ?_, ?_⟩
  · intro s hs; exact (hreg _ _).mpr (h.reg s hs)
  · intro t' c0 hm
    rw [List.count_append]
    have hz : List.count (Call.unsub t' c0) [Call.publish t m] = 0 := by
      apply List.count_eq_zero_of_not_mem
      simp
    rw [hz]
    exact h.count t' c0 (hsub t' c0 hm)
  · intro t' c0 hm
    rcases List.mem_append.mp hm with a | a
    · exact List.mem_append_left _ (h.unsubCreated t' c0 a)
    · simp at a
  · intro s hs; exact List.mem_append_left _ (h.listCreated s hs)
  · intro t0 c0 t' hm hr
    exact h.createdReg t0 c0 t' (hsub t0 c0 hm) ((hreg _ _).mp hr)
  · intro t' c0 hm
    rw [hlen]; exact h.createdLt t' c0 (hsub t' c0 hm)

theorem HInv_release {b : State} {calls : List Call} {l l' : List sub} {s : sub}
    (h : HInv b calls l) (hp : l.Perm (s :: l')) :
    ∃ b', unsub s.topic s.ch b = .ok b' ∧ HInv b' (calls ++ [Call.unsub s.topic s.ch]) l' := by
  have hs : s ∈ l := hp.mem_iff.mpr (List.mem_cons_self _ _)
  have hsub_mem : ∀ x, x ∈ l' → x ∈ l := fun x hx => hp.mem_iff.mpr (List.mem_cons_of_mem _ hx)
  obtain ⟨b', h1, h2, _, h4, h5, _, _, _⟩ := unsub_spec h.wf s.topic s.ch (h.reg s hs)
  have hnd : ((s :: l').map (fun x => x.ch)).Nodup :=
    ((hp.map (fun x => x.ch)).nodup_iff).mp h.nodup
  rw [List.map_cons, List.nodup_cons] at hnd
  have hsub : ∀ t' c0, Call.subscribe t' c0 ∈ calls ++ [Call.unsub s.topic s.ch] →
      Call.subscribe t' c0 ∈ calls := by
    intro t' c0 hm
    rcases List.mem_append.mp hm with a | a
    · exact a
    · simp at a
  refine ⟨b', h1, h2, ?_, hnd.2, ?_, ?_, ?_, ?_, ?_⟩
  · intro x hx
    refine (h4 _ _).mpr ⟨h.reg x (hsub_mem x hx), ?_⟩
    intro e
    exact hnd.1 (List.mem_map.mpr ⟨x, hx, e⟩)
  · intro t' c0 hm
    have hold := h.count t' c0 (hsub t' c0 hm)
    rw [hp.count_eq, List.count_cons] at hold
    rw [List.count_append, List.count_singleton]
    by_cases e : s = ⟨t', c0⟩
    · have e2 : Call.unsub s.topic s.ch = Call.unsub t' c0 := by rw [e]
      simp only [e, e2, beq_self_eq_true, if_true] at hold ⊢
      omega
    · have e2 : ¬ (Call.unsub s.topic s.ch = Call.unsub t' c0) := by
        intro e3
        simp only [Call.unsub.injEq] at e3
        apply e
        cases s
        simp only [sub.mk.injEq]
        exact e3
      have e3 : (s == (⟨t', c0⟩ : sub)) = false := by simpa using e
      have e4 : (Call.unsub s.topic s.ch == Call.unsub t' c0) = false := by simpa using e2
      simp only [e3, e4] at hold ⊢
      simpa using hold
  · intro t' c0 hm
    rcases List.mem_append.mp hm with a | a
    · exact List.mem_append_left _ (h.unsubCreated t' c0 a)
    · simp only [List.mem_singleton, Call.unsub.injEq] at a
      rw [a.1, a.2]
      exact List.mem_append_left _ (h.listCreated s hs)
  · intro x hx
    exact List.mem_append_left _ (h.listCreated x (hsub_mem x hx))
  · intro t0 c0 t' hm hr
    obtain ⟨hr1, hr2⟩ := (h4 t' c0).mp hr
    obtain ⟨x, hx, hxc⟩ := h.createdReg t0 c0 t' (hsub t0 c0 hm) hr1
    refine ⟨x, ?_, hxc⟩
    rcases List.mem_cons.mp (hp.mem_iff.mp hx) with e | e
    · exact absurd (by rw [← hxc, e]) hr2
    · exact e
  · intro t' c0 hm
    rw [h5]; exact h.createdLt t' c0 (hsub t' c0 hm)

theorem findTopic_some (topic : String) :
    ∀ (l : List sub) (i : Nat) (s : sub), findTopic topic l = some (i, s) →
      l.Perm (s :: l.eraseIdx i) := by
  intro l
  induction l with
  | nil => intro i s h; simp [findTopic] at h
  | cons a rest ih =>
    intro i s h
    unfold findTopic at h
    by_cases ha : a.topic = topic
    · rw [if_pos ha] at h
      simp only [Option.some.injEq, Prod.mk.injEq] at h
      rw [← h.1, ← h.2, List.eraseIdx_cons_zero]
    · rw [if_neg ha] at h
      cases hf : findTopic topic rest with
      | none => rw [hf] at h; simp at h
      | some p =>
        obtain ⟨j, s'⟩ := p
        rw [hf] at h
        simp only [Option.map_some', Option.some.injEq, Prod.mk.injEq] at h
        rw [← h.1, ← h.2, List.eraseIdx_cons_succ]
        exact ((ih j s' hf).cons a).trans (List.Perm.swap _ _ _)

theorem releaseAll_spec :
    ∀ (l : List sub) (c : Conn), HInv c.broker c.calls l →
      ∃ c', releaseAll l c = .ok c' ∧ HInv c'.broker c'.calls [] ∧ c'.out = c.out := by
  intro l
  induction l with
  | nil => intro c h; exact ⟨c, rfl, h, rfl⟩
  | cons s rest ih =>
    intro c h
    obtain ⟨b', h1, h2⟩ := HInv_release h (List.Perm.refl _)
    obtain ⟨c', g1, g2, g3⟩ :=
      ih ⟨b', c.subs, c.out, c.calls ++ [Call.unsub s.topic s.ch]⟩ h2
    exact ⟨c', by simp [releaseAll, h1, g1], g2, g3⟩

theorem handleLine_inv (ToUpper : String → String) (text : String) (c : Conn)
    (h : HInv c.broker c.calls c.subs) :
    ∃ c' d, handleLine ToUpper text c = .ok (c', d) ∧
      (d = false → HInv c'.broker c'.calls c'.subs) ∧
      (d = true → HInv c'.broker c'.calls []) := by
  unfold handleLine
  dsimp only
  split
  · exact ⟨c, false, rfl, fun _ => h, fun e => by cases e⟩
  split
  · split
    · exact ⟨_, false, rfl, fun _ => h, fun e => by cases e⟩
    · exact ⟨_, false, rfl, fun _ => HInv_subscribe h _, fun e => by cases e⟩
  split
  · split
    · exact ⟨_, false, rfl, fun _ => h, fun e => by cases e⟩
    · split
      · rename_i i s hf
        obtain ⟨b', h1, h2⟩ := HInv_release h (findTopic_some _ _ _ _ hf)
        rw [h1]
        exact ⟨_, false, rfl, fun _ => h2, fun e => by cases e⟩
      · exact ⟨_, false, rfl, fun _ => h, fun e => by cases e⟩
  split
  · split
    · exact ⟨_, false, rfl, fun _ => h, fun e => by cases e⟩
    · obtain ⟨b', h1, h2⟩ := HInv_publish h
        ((SplitN (TrimSpace text) ' ' 3).getD 1 "") ((SplitN (TrimSpace text) ' ' 3).getD 2 "")
      rw [h1]
      exact ⟨_, false, rfl, fun _ => h2, fun e => by cases e⟩
  split
  · obtain ⟨c', g1, g2, _⟩ :=
      releaseAll_spec c.subs ⟨c.broker, c.subs, c.out ++ ["bye"], c.calls⟩ h
    unfold cleanup
    dsimp only
    rw [g1]
    exact ⟨c', true, rfl, (fun e => by cases e), fun _ => g2⟩
  · exact ⟨_, false, rfl, fun _ => h, fun e => by cases e⟩

theorem handleConnection_inv (ToUpper : String → String) :
    ∀ (lines : List String) (c : Conn), HInv c.broker c.calls c.subs →
      ∃ c', handleConnection ToUpper lines c = .ok c' ∧ HInv c'.broker c'.calls [] := by
  intro lines
  induction lines with
  | nil =>
    intro c h
    obtain ⟨c', g1, g2, _⟩ := releaseAll_spec c.subs c h
    exact ⟨c', g1, g2⟩
  | cons text rest ih =>
    intro c h
    obtain ⟨c1, d, h1, h2, h3⟩ := handleLine_inv ToUpper text c h
    cases d with
    | true => exact ⟨c1, by simp [handleConnection, h1], h3 rfl⟩
    | false =>
      obtain ⟨c', g1, g2⟩ := ih c1 (h2 rfl)
      exact ⟨c', by simp [handleConnection, h1, g1], g2⟩

theorem releaseAll_out :
    ∀ (l : List sub) (c c' : Conn), releaseAll l c = .ok c' → c'.out = c.out := by
  intro l
  induction l with
  | nil =>
    intro c c' h
    simp only [releaseAll, Except.ok.injEq] at h
    rw [← h]
  | cons s rest ih =>
    intro c c' h
    unfold releaseAll at h
    cases hu : unsub s.topic s.ch c.broker with
    | error e => rw [hu] at h; cases h
    | ok b =>
      rw [hu] at h
      dsimp only at h
      exact ih ⟨b, c.subs, c.out, c.calls ++ [Call.unsub s.topic s.ch]⟩ c' h

theorem handleLine_subscribe_x (ToUpper : String → String)
    (hU : ToUpper "SUBSCRIBE" = "SUBSCRIBE") (c : Conn) :
    handleLine ToUpper "SUBSCRIBE x" c =
      .ok (⟨(Subscribe "x" c.broker).2, c.subs ++ [⟨"x", (Subscribe "x" c.broker).1⟩],
        c.out ++ ["OK subscribed to x"],
        c.calls ++ [Call.subscribe "x" (Subscribe "x" c.broker).1]⟩, false) := by
  have h1 : TrimSpace "SUBSCRIBE x" = "SUBSCRIBE x" := by decide
  have h2 : SplitN "SUBSCRIBE x" ' ' 3 = ["SUBSCRIBE", "x"] := by decide
  have h3 : ¬ ("SUBSCRIBE x" = "") := by decide
  have h4 : "OK subscribed to " ++ "x" = "OK subscribed to x" := by decide
  unfold handleLine
  simp only [h1, h2]
  rw [if_neg h3]
  simp only [List.getD_cons_zero, List.getD_cons_succ, hU, if_true, List.length_cons,
    List.length_nil, h4]
  rfl

theorem handleLine_exit (ToUpper : String → String) (hU : ToUpper "EXIT" = "EXIT") (c : Conn) :
    handleLine ToUpper "EXIT" c =
      match cleanup ⟨c.broker, c.subs, c.out ++ ["bye"], c.calls⟩ with
      | .ok c' => .ok (c', true)
      | .error e => .error e := by
  have h1 : TrimSpace "EXIT" = "EXIT" := by decide
  have h2 : SplitN "EXIT" ' ' 3 = ["EXIT"] := by decide
  have h3 : ¬ ("EXIT" = "") := by decide
  have e1 : ¬ ("EXIT" = "SUBSCRIBE") := by decide
  have e2 : ¬ ("EXIT" = "UNSUBSCRIBE") := by decide
  have e3 : ¬ ("EXIT" = "PUBLISH") := by decide
  unfold handleLine
  simp only [h1, h2]
  rw [if_neg h3]
  simp only [List.getD_cons_zero, hU, e1, e2, e3, if_false, if_true]

theorem scenario_subscribe_exit (ToUpper : String → String)
    (hU1 : ToUpper "SUBSCRIBE" = "SUBSCRIBE") (hU2 : ToUpper "EXIT" = "EXIT")
    (c c' : Conn) (h : handleConnection ToUpper ["SUBSCRIBE x", "EXIT"] c = .ok c') :
    c'.out = c.out ++ ["OK subscribed to x", "bye"] := by
  simp only [handleConnection, handleLine_subscribe_x ToUpper hU1,
    handleLine_exit ToUpper hU2] at h
  unfold cleanup at h
  dsimp only at h
  generalize hr : releaseAll _ _ = r at h
  cases r with
  | error e => simp at h
  | ok c1 =>
    simp only [Except.ok.injEq] at h
    have := releaseAll_out _ _ _ hr
    rw [← h, this]
    simp

/-- C6: whatever lines a connection sends, the handler finishes without a panic,
and by then the release handle of every subscription it created has been invoked
exactly once, no other handle was invoked, no mailbox it created is registered
under any topic, and every topic still a key of the registry has a subscriber
that is not this connection's; the lines "SUBSCRIBE x", "EXIT" are answered with
exactly "OK subscribed to x" and "bye". -/
theorem handler_releases_once (ToUpper : String → String) (w : State) (hw : WF w)
    (lines : List String) :
    ∃ c', handleConnection ToUpper lines (Conn.start w) = .ok c' ∧
      (∀ t ch, Call.subscribe t ch ∈ c'.calls → c'.calls.count (Call.unsub t ch) = 1) ∧
      (∀ t ch, Call.unsub t ch ∈ c'.calls → Call.subscribe t ch ∈ c'.calls) ∧
      (∀ t ch t', Call.subscribe t ch ∈ c'.calls → ¬ registered c'.broker t' ch) ∧
      (∀ t, hasKey c'.broker t →
        ∃ ch, registered c'.broker t ch ∧ ∀ t0, Call.subscribe t0 ch ∉ c'.calls) ∧
      (lines = ["SUBSCRIBE x", "EXIT"] → ToUpper "SUBSCRIBE" = "SUBSCRIBE" →
        ToUpper "EXIT" = "EXIT" → c'.out = ["OK subscribed to x", "bye"]) := by
  obtain ⟨c', h1, h2⟩ := handleConnection_inv ToUpper lines (Conn.start w) (HInv_start hw)
  have hnot : ∀ t ch t', Call.subscribe t ch ∈ c'.calls → ¬ registered c'.broker t' ch := by
    intro t ch t' hm hr
    obtain ⟨s, hs, _⟩ := h2.createdReg t ch t' hm hr
    simp at hs
  refine ⟨c', h1, ?_, h2.unsubCreated, hnot, ?_, ?_⟩
  · intro t ch hm
    have := h2.count t ch hm
    simpa using this
  · intro t hk
    obtain ⟨ch, hch⟩ := (h2.wf.hasKey_iff t).mp hk
    exact ⟨ch, hch, fun t0 hm => hnot t0 ch t hm hch⟩
  · intro hl hU1 hU2
    subst hl
    have := scenario_subscribe_exit ToUpper hU1 hU2 _ _ h1
    simpa [Conn.start] using this

/-- C6 at a concrete input: scenario 4 on a broker where another connection
already subscribed to "x". -/
theorem handler_releases_once_witness :
    WF (Subscribe "x" NewBroker).2 ∧
    ∃ c', handleConnection asciiToUpper ["SUBSCRIBE x", "EXIT"]
        (Conn.start (Subscribe "x" NewBroker).2) = .ok c' ∧
      c'.out = ["OK subscribed to x", "bye"] :=
  ⟨WF_Subscribe WF_NewBroker "x",
   (handler_releases_once asciiToUpper (Subscribe "x" NewBroker).2
      (WF_Subscribe WF_NewBroker "x") ["SUBSCRIBE x", "EXIT"]).imp
     (fun _ h => ⟨h.1, h.2.2.2.2.2 rfl (by decide) (by decide)⟩)⟩

end PubSub
